import Mathlib

set_option autoImplicit false
set_option maxRecDepth 8000

/- Verification development for the CacheLab core: a shallow embedding of the
shared hash helpers (`shared/utils/helpers.ts`), the partitioned file store
(`storage-service/src/storage/FileStorage.ts`), the storage manager
(`storage-service/src/config/config.ts`) and the cache engine
(`cache-service/src/cache/HashMap.ts`), together with theorems checking the
specification's claims against these definitions. -/

namespace CacheLab

/-- Keys are byte strings (spec §3, "Key. A non-empty byte string").  For the
ASCII keys used in all concrete instances below, the UTF-16 code units hashed
by `djb2Hash` (`charCodeAt`) coincide with the UTF-8 bytes that
`Buffer.from(key)` feeds to the Base64 encoder. -/
abbrev Key := List Nat

/-- Stored values.  The claims never inspect the JSON structure of a value
(spec §3 allows modelling values as an opaque payload), so an integer payload
suffices. -/
abbrev Val := Int

/-- JavaScript `ToInt32`: wrap an integer into the signed 32-bit range, as the
`<<` operator does to its operand and its result. -/
def toInt32 (x : Int) : Int := (x + 2 ^ 31) % 2 ^ 32 - 2 ^ 31

/-- One step of the loop in `djb2Hash` (helpers.ts:13):
`hash = ((hash << 5) + hash) + c`.  In JavaScript `hash << 5` truncates `hash`
to a signed 32-bit integer, shifts, and wraps the result to 32 bits again,
while the two additions are exact (the accumulator stays far below 2^53). -/
def djb2Step (h : Int) (c : Nat) : Int := toInt32 (toInt32 h * 32) + h + c

/-- The accumulated hash of `djb2Hash` before `Math.abs` (helpers.ts:11-14). -/
def djb2Loop (key : Key) : Int := key.foldl djb2Step 5381

/-- `djb2Hash` (helpers.ts:10-16): the loop above followed by `Math.abs`. -/
def djb2Hash (key : Key) : Nat := (djb2Loop key).natAbs

/-- Modelled from the spec: the djb2 hash exactly as the claim and the
glossary word it — `h ← 5381; for c in bytes: h ← h*33 + c`, with the absolute
value as the final step (a no-op here, since this fold never leaves ℕ).  This
definition follows the spec's words and is compared against `djb2Hash`, the
definition taken from the source. -/
def specDjb2 (key : Key) : Nat := key.foldl (fun h c => h * 33 + c) 5381

/-- `FileStorage.getPartitionNumber` (FileStorage.ts:43-45) with the default
`partitionCount = 16`. -/
def getPartitionNumber (key : Key) : Nat := djb2Hash key % 16

/-- The standard Base64 alphabet used by `Buffer.toString('base64')`. -/
def base64Alphabet : List Char :=
  "ABCDEFGHIJKLMNOPQRSTUVWXYZabcdefghijklmnopqrstuvwxyz0123456789+/".toList

/-- Character for a 6-bit group. -/
def b64Char (n : Nat) : Char := base64Alphabet.getD n 'A'

/-- Base64 encoding of a byte string, processed in 3-byte blocks with `=`
padding, as produced by `Buffer.from(key).toString('base64')`. -/
def base64Encode : List Nat → List Char
  | [] => []
  | [a] => [b64Char (a / 4), b64Char (a % 4 * 16), '=', '=']
  | [a, b] => [b64Char (a / 4), b64Char (a % 4 * 16 + b / 16), b64Char (b % 16 * 4), '=']
  | a :: b :: c :: rest =>
      b64Char (a / 4) :: b64Char (a % 4 * 16 + b / 16) ::
        b64Char (b % 16 * 4 + c / 64) :: b64Char (c % 64) :: base64Encode rest

/-- Index of a character in the Base64 alphabet (used by the decoder below,
which exists only to prove the encoder injective). -/
def b64Index (c : Char) : Nat := base64Alphabet.indexOf c

/-- Base64 decoder, a left inverse of `base64Encode` on byte strings. -/
def base64Decode : List Char → Option (List Nat)
  | [] => some []
  | c1 :: c2 :: c3 :: c4 :: rest =>
      if c3 = '=' then
        if rest = [] ∧ c4 = '=' then some [b64Index c1 * 4 + b64Index c2 / 16] else none
      else if c4 = '=' then
        if rest = [] then
          some [b64Index c1 * 4 + b64Index c2 / 16, b64Index c2 % 16 * 16 + b64Index c3 / 4]
        else none
      else
        (base64Decode rest).map (fun l =>
          (b64Index c1 * 4 + b64Index c2 / 16) ::
            (b64Index c2 % 16 * 16 + b64Index c3 / 4) ::
              (b64Index c3 % 4 * 64 + b64Index c4) :: l)
  | _ => none

/-- The character replacement of `FileStorage.sanitizeKey` (FileStorage.ts:68):
`replace(/[/+=]/g, '_')`. -/
def sanitizeChar (c : Char) : Char := if c = '/' ∨ c = '+' ∨ c = '=' then '_' else c

/-- `FileStorage.sanitizeKey` (FileStorage.ts:67-69): Base64 of the raw key
with `/`, `+` and `=` each replaced by `_`. -/
def sanitizeKey (key : Key) : List Char := (base64Encode key).map sanitizeChar

/-- `true` when the Base64 encoding of the argument list is untouched by the
character replacement in `sanitizeKey`. -/
def noSpecials (l : List Char) : Bool := l.all (fun c => sanitizeChar c == c)

/-- `FileStorage.getFilePath` (FileStorage.ts:57-62) without the data-root
prefix: the partition directory index and the file name inside it. -/
def savePath (key : Key) : Nat × List Char :=
  (getPartitionNumber key, sanitizeKey key ++ ".json".toList)

/-! ### The on-disk state of the partitioned store

A partition directory is a list of files in enumeration order; the disk is the
list of the 16 partition directories.  A file's content is abstracted to the
outcome of `JSON.parse`: either a well-formed `StorageEntry` or `corrupt`. -/

/-- A `StorageEntry` as written by `FileStorage.save` (shared/types, used in
FileStorage.ts:93-101): key, value and `metadata: {createdAt, updatedAt,
version}`. -/
structure SEntry where
  key : Key
  value : Val
  createdAt : Int
  updatedAt : Int
  version : Int
deriving DecidableEq, Repr

/-- Outcome of `JSON.parse` on a file's bytes. -/
inductive FileContent where
  | ok (e : SEntry)
  | corrupt
deriving DecidableEq, Repr

/-- A file in a partition directory. -/
structure DFile where
  name : List Char
  content : FileContent
deriving DecidableEq, Repr

abbrev DiskPartition := List DFile

abbrev Disk := List DiskPartition

/-- Whether a file name ends in `.json` (the filter in FileStorage.ts:179). -/
def isJsonName (n : List Char) : Bool := ".json".toList.isSuffixOf n

/-- Content of the file called `name` in a partition directory. -/
def partGet (p : DiskPartition) (name : List Char) : Option FileContent :=
  (p.find? (fun f => f.name == name)).map (fun f => f.content)

/-- `fs.writeFile`: overwrite the file called `name` in place, or create it. -/
def partPut : DiskPartition → List Char → FileContent → DiskPartition
  | [], n, c => [⟨n, c⟩]
  | f :: rest, n, c => if f.name == n then ⟨n, c⟩ :: rest else f :: partPut rest n c

/-- Read the file called `name` in partition `i`. -/
def diskGetFile (disk : Disk) (i : Nat) (name : List Char) : Option FileContent :=
  match disk.get? i with
  | none => none
  | some p => partGet p name

/-- Write the file called `name` in partition `i`. -/
def diskPutFile (disk : Disk) (i : Nat) (name : List Char) (c : FileContent) : Disk :=
  disk.set i (partPut (disk.getD i []) name c)

/-- `FileStorage.save` (FileStorage.ts:77-109).  `t1` is the `Date.now()` read
at line 81 and `t2` the one at line 92.  If a prior file exists it is loaded
to carry `createdAt` and compute `version = previous.version + 1`; a prior
file that fails to parse makes `load` throw and hence `save` throw
(`.error`). -/
def fsSave (disk : Disk) (key : Key) (v : Val) (t1 t2 : Int) :
    Except Unit (Disk × SEntry) :=
  let p := (savePath key).1
  let name := (savePath key).2
  match diskGetFile disk p name with
  | some (.ok prev) =>
      let e : SEntry := ⟨key, v, prev.createdAt, t2, prev.version + 1⟩
      .ok (diskPutFile disk p name (.ok e), e)
  | some .corrupt => .error ()
  | none =>
      let e : SEntry := ⟨key, v, t1, t2, 1⟩
      .ok (diskPutFile disk p name (.ok e), e)

/-- `FileStorage.load` (FileStorage.ts:116-128): a missing file is `none`,
corrupt JSON throws. -/
def fsLoad (disk : Disk) (key : Key) : Except Unit (Option SEntry) :=
  match diskGetFile disk (savePath key).1 (savePath key).2 with
  | none => .ok none
  | some (.ok e) => .ok (some e)
  | some .corrupt => .error ()

/-- `FileStorage.clear` (FileStorage.ts:239-265): unlink every `.json` file in
every partition directory. -/
def fsClear (disk : Disk) : Disk :=
  disk.map (fun p => p.filter (fun f => ¬ isJsonName f.name))

/-- Keys collected from one partition directory by `FileStorage.list`
(FileStorage.ts:175-190).  The `try` block wraps the whole per-partition file
loop, so a file that fails `JSON.parse` aborts the enumeration of the
*remaining* files of that partition (the error is logged and the outer loop
moves on to the next partition). -/
def listPartition : DiskPartition → List Key
  | [] => []
  | f :: rest =>
      if isJsonName f.name then
        match f.content with
        | .ok e => e.key :: listPartition rest
        | .corrupt => []
      else listPartition rest

/-- `FileStorage.list` (FileStorage.ts:168-198): keys of parsed entries across
all partitions, in scan order. -/
def listKeys (disk : Disk) : List Key := (disk.map listPartition).flatten

/-- Entries collected from one partition by `FileStorage.getAllEntries`
(FileStorage.ts:204-234); same per-partition abort behavior as `list`. -/
def entriesPartition : DiskPartition → List SEntry
  | [] => []
  | f :: rest =>
      if isJsonName f.name then
        match f.content with
        | .ok e => e :: entriesPartition rest
        | .corrupt => []
      else entriesPartition rest

/-- `FileStorage.getAllEntries`: all parsed entries across all partitions in
scan order. -/
def allEntries (disk : Disk) : List SEntry := (disk.map entriesPartition).flatten

/-! ### StorageManager: compaction and the write queue -/

/-- `keyMap.get(entry.key)` on the association-list model of a JS `Map`. -/
def lookupByKey (m : List SEntry) (k : Key) : Option SEntry :=
  (m.find? (fun e => e.key == k)).map id

/-- `keyMap.set(entry.key, entry)`: replace in place if the key is present
(JS `Map.set` keeps the original insertion position), else append. -/
def mapSetEntry : List SEntry → SEntry → List SEntry
  | [], e => [e]
  | x :: rest, e => if x.key == e.key then e :: rest else x :: mapSetEntry rest e

/-- The key-grouping loop of `StorageManager.compact` (config.ts:290-295):
`if (!existing || entry.metadata.version > existing.metadata.version)
keyMap.set(entry.key, entry)`.  On equal versions the existing (earlier)
entry is kept. -/
def keyMapFold (entries : List SEntry) : List SEntry :=
  entries.foldl
    (fun m e =>
      match lookupByKey m e.key with
      | none => mapSetEntry m e
      | some ex => if ex.version < e.version then mapSetEntry m e else m)
    []

/-- The re-save loop of `StorageManager.compact` (config.ts:301-303): write
each kept entry back through `fileStorage.save`. -/
def saveAll (disk : Disk) (es : List SEntry) (t : Int) : Except Unit Disk :=
  es.foldlM (fun d e => (fsSave d e.key e.value t t).map Prod.fst) disk

/-- Result of a compaction: the new disk and the manager's read cache. -/
structure CompactResult where
  disk : Disk
  readCache : List (Key × SEntry)
deriving DecidableEq, Repr

/-- `StorageManager.compact` (config.ts:282-310): read all live entries, keep
one per key by the `keyMapFold` rule, clear the store and the read cache, and
re-save every kept entry (all saves happen at time `t`). -/
def compact (disk : Disk) (rc : List (Key × SEntry)) (t : Int) :
    Except Unit CompactResult :=
  (saveAll (fsClear disk) (keyMapFold (allEntries disk)) t).map (fun d => ⟨d, []⟩)

/-- The first entry of maximal version for key `k` in scan order: the value
`keyMapFold` associates to `k` (used to state the corrected compaction
claim). -/
def selectKey (k : Key) (entries : List SEntry) : Option SEntry :=
  entries.foldl
    (fun acc e =>
      if e.key == k then
        match acc with
        | none => some e
        | some a => if a.version < e.version then some e else acc
      else acc)
    none

/-- A pending write in `StorageManager`'s `writeQueue` (config.ts:21-26); the
`id` stands for the completion promise handed back by `save`. -/
structure QueueOp where
  id : Nat
  key : Key
  value : Val
deriving DecidableEq, Repr

/-- The queue-visible state of a `StorageManager`: the pending queue, the
operation currently being written by the drainer (`processQueue` has shifted
it and is awaiting `fileStorage.save`), the operations whose write landed and
whose promise was settled, and the supply of fresh promise ids. -/
structure SMState where
  queue : List QueueOp
  current : Option QueueOp
  written : List QueueOp
  nextId : Nat
deriving DecidableEq, Repr

/-- Events of the storage-manager queue machine:
`save` = `StorageManager.save` pushes a fresh operation (config.ts:73-78);
`take` = the drainer shifts the queue head (config.ts:91);
`finish` = the file write lands and the promise is settled (config.ts:95-100);
`clearQ` = `StorageManager.clear` rebinds `writeQueue` to `[]`
(config.ts:190-194). -/
inductive SMEvent where
  | save (key : Key) (value : Val)
  | take
  | finish
  | clearQ
deriving DecidableEq, Repr

/-- One step of the storage-manager queue machine. -/
def smStep (s : SMState) (ev : SMEvent) : SMState :=
  match ev with
  | .save k v =>
      { s with queue := s.queue ++ [⟨s.nextId, k, v⟩], nextId := s.nextId + 1 }
  | .take =>
      match s.current, s.queue with
      | none, op :: rest => { s with current := some op, queue := rest }
      | _, _ => s
  | .finish =>
      match s.current with
      | some op => { s with current := none, written := s.written ++ [op] }
      | none => s
  | .clearQ => { s with queue := [] }

/-- Run a sequence of queue events. -/
def smRun (s : SMState) (evs : List SMEvent) : SMState := evs.foldl smStep s

/-! ### The cache engine

`CacheManager` (HashMap.ts:290-611) over its `HashMap<CacheEntry>`.  The hash
map is modelled at its map semantics — the association list `table` holds
exactly the entries reachable through the bucket chains, keyed without
duplicates — and the doubly linked LRU list by the sequence of its node keys
from head (most recent) to tail; `lruMap` is the key set of the JS
`Map<string, LRUNode>`. -/

/-- A `CacheEntry` (shared/types, created in HashMap.ts:394-401). -/
structure CEntry where
  key : Key
  value : Val
  ttl : Int
  createdAt : Int
  expiresAt : Option Int
  lastAccessed : Int
deriving DecidableEq, Repr

/-- `calculateExpiration` (helpers.ts:54-57): `if (!ttl || ttl <= 0) return
undefined; return Date.now() + ttl * 1000`. -/
def calculateExpiration (ttl : Int) (now : Int) : Option Int :=
  if ttl ≤ 0 then none else some (now + ttl * 1000)

/-- `isExpired` (helpers.ts:23-26): `if (!expiresAt) return false; return
Date.now() > expiresAt`.  A present timestamp of exactly `0` is falsy in
JavaScript, hence also "not expired". -/
def isExpired (expiresAt : Option Int) (now : Int) : Bool :=
  match expiresAt with
  | none => false
  | some t => if t = 0 then false else decide (t < now)

/-- State of a `CacheManager` (HashMap.ts:290-316). -/
structure CMState where
  table : List (Key × CEntry)
  lruList : List Key
  lruMap : List Key
  maxSize : Nat
  defaultTTL : Int
  hits : Nat
  misses : Nat
  evictions : Nat
deriving DecidableEq, Repr

/-- A fresh `CacheManager` (constructor, HashMap.ts:303-316). -/
def initCM (maxSize : Nat) (defaultTTL : Int) : CMState :=
  ⟨[], [], [], maxSize, defaultTTL, 0, 0, 0⟩

/-- `HashMap.get` (HashMap.ts:106-118) at map level. -/
def tblGet (t : List (Key × CEntry)) (k : Key) : Option CEntry :=
  (t.find? (fun p => p.1 == k)).map (fun p => p.2)

/-- `HashMap.set` (HashMap.ts:78-99) at map level: overwrite in place or add
a new node. -/
def tblSet : List (Key × CEntry) → Key → CEntry → List (Key × CEntry)
  | [], k, e => [(k, e)]
  | p :: rest, k, e => if p.1 == k then (k, e) :: rest else p :: tblSet rest k e

/-- `HashMap.delete` (HashMap.ts:134-156) at map level: unlink the first
matching node. -/
def tblDel (t : List (Key × CEntry)) (k : Key) : List (Key × CEntry) :=
  t.eraseP (fun p => p.1 == k)

/-- `CacheManager.evictLRU` (HashMap.ts:375-382): remove the LRU-list tail,
delete it from table and index, count one eviction. -/
def evictLRU (s : CMState) : CMState :=
  match s.lruList.getLast? with
  | none => s
  | some tail =>
      { s with
        lruList := s.lruList.dropLast
        table := tblDel s.table tail
        lruMap := s.lruMap.erase tail
        evictions := s.evictions + 1 }

/-- `CacheManager.set` (HashMap.ts:390-422).  `moveToHead`/`addToHead` on the
list model are erase-then-cons and cons. -/
def setOp (s : CMState) (k : Key) (v : Val) (ttl? : Option Int) (now : Int) : CMState :=
  let actualTTL := ttl?.getD s.defaultTTL
  let e : CEntry := ⟨k, v, actualTTL, now, calculateExpiration actualTTL now, now⟩
  if s.lruMap.contains k then
    { s with table := tblSet s.table k e, lruList := k :: s.lruList.erase k }
  else
    let s' := if s.maxSize ≤ s.table.length then evictLRU s else s
    { s' with
      table := tblSet s'.table k e
      lruMap := k :: s'.lruMap
      lruList := k :: s'.lruList }

/-- `CacheManager.delete` (HashMap.ts:480-487). -/
def deleteOp (s : CMState) (k : Key) : Bool × CMState :=
  if s.lruMap.contains k then
    ((tblGet s.table k).isSome,
      { s with
        table := tblDel s.table k
        lruList := s.lruList.erase k
        lruMap := s.lruMap.erase k })
  else (false, s)

/-- `CacheManager.get` (HashMap.ts:429-456). -/
def getOp (s : CMState) (k : Key) (now : Int) : Option Val × CMState :=
  match tblGet s.table k with
  | none => (none, { s with misses := s.misses + 1 })
  | some e =>
      if isExpired e.expiresAt now then
        let s' := (deleteOp s k).2
        (none, { s' with misses := s'.misses + 1 })
      else
        let e' := { e with lastAccessed := now }
        let s' := { s with table := tblSet s.table k e' }
        let s'' :=
          if s'.lruMap.contains k then { s' with lruList := k :: s'.lruList.erase k } else s'
        (some e'.value, { s'' with hits := s''.hits + 1 })

/-- `CacheManager.has` (HashMap.ts:463-473): lazy expiry, no statistics, no
LRU movement. -/
def hasOp (s : CMState) (k : Key) (now : Int) : Bool × CMState :=
  match tblGet s.table k with
  | none => (false, s)
  | some e => if isExpired e.expiresAt now then (false, (deleteOp s k).2) else (true, s)

/-- `CacheManager.clear` (HashMap.ts:492-500). -/
def clearOp (s : CMState) : CMState :=
  { s with table := [], lruList := [], lruMap := [], hits := 0, misses := 0, evictions := 0 }

/-- `CacheManager.updateTTL` (HashMap.ts:562-573). -/
def updateTTLOp (s : CMState) (k : Key) (ttl : Int) (now : Int) : Bool × CMState :=
  match tblGet s.table k with
  | none => (false, (deleteOp s k).2)
  | some e =>
      if isExpired e.expiresAt now then (false, (deleteOp s k).2)
      else
        let e' := { e with ttl := ttl, expiresAt := calculateExpiration ttl now }
        (true, { s with table := tblSet s.table k e' })

/-- The filter body of `CacheManager.keys` (HashMap.ts:506-516): walk the
materialized key list in order, lazily deleting missing/expired entries. -/
def keysAux (now : Int) : List Key → CMState → List Key × CMState
  | [], s => ([], s)
  | k :: rest, s =>
      let keep : Bool × CMState :=
        match tblGet s.table k with
        | none => (false, (deleteOp s k).2)
        | some e => if isExpired e.expiresAt now then (false, (deleteOp s k).2) else (true, s)
      let r := keysAux now rest keep.2
      (if keep.1 then k :: r.1 else r.1, r.2)

/-- `CacheManager.keys` (HashMap.ts:506-516). -/
def keysOp (s : CMState) (now : Int) : List Key × CMState :=
  keysAux now (s.table.map Prod.fst) s

/-- The `size` getter (HashMap.ts:521-523): the number of live entries in the
table. -/
def cacheSize (s : CMState) : Nat := s.table.length

/-- JavaScript `Math.round`: round half away from zero towards `+∞`. -/
def jsRound (x : ℚ) : Int := ⌊x + 1 / 2⌋

/-- The `hitRate` field of `CacheManager.getStats` (HashMap.ts:528-540):
`total > 0 ? hits / total : 0`, then `Math.round(hitRate * 10000) / 100`. -/
def statsHitRate (s : CMState) : ℚ :=
  let total := s.hits + s.misses
  let hitRate : ℚ := if 0 < total then (s.hits : ℚ) / (total : ℚ) else 0
  (jsRound (hitRate * 10000) : ℚ) / 100

/-- One engine operation, with the wall-clock time at which it runs. -/
inductive COp where
  | set (k : Key) (v : Val) (ttl : Option Int) (now : Int)
  | get (k : Key) (now : Int)
  | has (k : Key) (now : Int)
  | del (k : Key)
  | updateTtl (k : Key) (ttl : Int) (now : Int)
  | clear
  | keys (now : Int)
deriving DecidableEq, Repr

/-- Apply one engine operation (results of `get`/`has`/... are dropped; only
the state evolves). -/
def applyOp (s : CMState) : COp → CMState
  | .set k v ttl now => setOp s k v ttl now
  | .get k now => (getOp s k now).2
  | .has k now => (hasOp s k now).2
  | .del k => (deleteOp s k).2
  | .updateTtl k ttl now => (updateTTLOp s k ttl now).2
  | .clear => clearOp s
  | .keys now => (keysOp s now).2

/-- Run a sequence of engine operations. -/
def runOps (s : CMState) (ops : List COp) : CMState := ops.foldl applyOp s

/-- The claimed engine invariant (spec §3 and §8): the size bound, and the
bijection between table keys, LRU-index keys and LRU-list nodes (each live
key has exactly one list node). -/
def CMWf (s : CMState) : Prop :=
  s.table.length ≤ s.maxSize ∧
  (s.table.map Prod.fst).Nodup ∧
  s.lruMap.Nodup ∧
  s.lruList.Nodup ∧
  (∀ k, (tblGet s.table k).isSome ↔ k ∈ s.lruMap) ∧
  (∀ k, k ∈ s.lruMap ↔ k ∈ s.lruList)

/-! ### Concrete store states used as claim instances -/

/-- An initialized, empty 16-partition store. -/
def emptyDisk16 : Disk := List.replicate 16 ([] : DiskPartition)

/-- A store whose partition 0 holds a corrupt `a.json` followed by a
parseable `b.json` with key `"k"`. -/
def demoDiskCorrupt : Disk :=
  emptyDisk16.set 0
    [⟨"a.json".toList, .corrupt⟩, ⟨"b.json".toList, .ok ⟨[107], 1, 0, 0, 1⟩⟩]

/-- A store whose partition 0 holds a single parseable `b.json` with key
`"k"`. -/
def demoDiskOk : Disk :=
  emptyDisk16.set 0 [⟨"b.json".toList, .ok ⟨[107], 1, 0, 0, 1⟩⟩]

/-- A store whose partition 0 holds two parseable files carrying the same key
`"k"` with equal versions and different values (1 first, 2 second in scan
order). -/
def demoDiskTie : Disk :=
  emptyDisk16.set 0
    [⟨"a.json".toList, .ok ⟨[107], 1, 0, 0, 1⟩⟩,
     ⟨"b.json".toList, .ok ⟨[107], 2, 0, 0, 1⟩⟩]

/-! ### Lemmas on the hash and the filename encoding -/

theorem djb2Step_emod16 (h : Int) (c : Nat) : djb2Step h c % 16 = (33 * h + c) % 16 := by
  unfold djb2Step toInt32
  have h31 : (2 : Int) ^ 31 = 2147483648 := by norm_num
  have h32 : (2 : Int) ^ 32 = 4294967296 := by norm_num
  rw [h31, h32]
  omega

theorem djb2Fold_emod16 (key : Key) :
    ∀ (h : Int) (g : Nat), h % 16 = (g : Int) % 16 →
      (key.foldl djb2Step h) % 16 = ((key.foldl (fun h c => h * 33 + c) g : Nat) : Int) % 16 := by
  induction key with
  | nil => intro h g hg; simpa using hg
  | cons c rest ih =>
      intro h g hg
      simp only [List.foldl_cons]
      apply ih
      rw [djb2Step_emod16]
      push_cast
      omega

theorem djb2Loop_emod16 (key : Key) : djb2Loop key % 16 = (specDjb2 key : Int) % 16 :=
  djb2Fold_emod16 key 5381 5381 rfl

theorem b64Index_b64Char_fin : ∀ n : Fin 64, b64Index (b64Char n.1) = n.1 := by decide

theorem b64Index_b64Char (n : Nat) (h : n < 64) : b64Index (b64Char n) = n :=
  b64Index_b64Char_fin ⟨n, h⟩

theorem b64Char_ne_pad_fin : ∀ n : Fin 64, b64Char n.1 ≠ '=' := by decide

theorem b64Char_ne_pad (n : Nat) (h : n < 64) : b64Char n ≠ '=' :=
  b64Char_ne_pad_fin ⟨n, h⟩

theorem base64Decode_encode :
    ∀ (n : Nat) (l : List Nat), l.length ≤ n → (∀ x ∈ l, x < 256) →
      base64Decode (base64Encode l) = some l := by
  intro n
  induction n with
  | zero =>
      intro l hl _
      cases l with
      | nil => rfl
      | cons a t => simp at hl
  | succ n ih =>
      intro l hl hb
      match l with
      | [] => rfl
      | [a] =>
          have ha : a < 256 := hb a (by simp)
          have i1 : b64Index (b64Char (a / 4)) = a / 4 := b64Index_b64Char _ (by omega)
          have i2 : b64Index (b64Char (a % 4 * 16)) = a % 4 * 16 := b64Index_b64Char _ (by omega)
          simp [base64Encode, base64Decode, i1, i2]
          omega
      | [a, b] =>
          have ha : a < 256 := hb a (by simp)
          have hbb : b < 256 := hb b (by simp)
          have h3 : b64Char (b % 16 * 4) ≠ '=' := b64Char_ne_pad _ (by omega)
          have i1 : b64Index (b64Char (a / 4)) = a / 4 := b64Index_b64Char _ (by omega)
          have i2 : b64Index (b64Char (a % 4 * 16 + b / 16)) = a % 4 * 16 + b / 16 :=
            b64Index_b64Char _ (by omega)
          have i3 : b64Index (b64Char (b % 16 * 4)) = b % 16 * 4 := b64Index_b64Char _ (by omega)
          simp [base64Encode, base64Decode, h3, i1, i2, i3]
          omega
      | a :: b :: c :: rest =>
          have ha : a < 256 := hb a (by simp)
          have hbb : b < 256 := hb b (by simp)
          have hc : c < 256 := hb c (by simp)
          have h3 : b64Char (b % 16 * 4 + c / 64) ≠ '=' := b64Char_ne_pad _ (by omega)
          have h4 : b64Char (c % 64) ≠ '=' := b64Char_ne_pad _ (by omega)
          have hrest : base64Decode (base64Encode rest) = some rest := by
            apply ih
            · have := hl
              simp only [List.length_cons] at this
              omega
            · intro x hx; exact hb x (by simp [hx])
          have i1 : b64Index (b64Char (a / 4)) = a / 4 := b64Index_b64Char _ (by omega)
          have i2 : b64Index (b64Char (a % 4 * 16 + b / 16)) = a % 4 * 16 + b / 16 :=
            b64Index_b64Char _ (by omega)
          have i3 : b64Index (b64Char (b % 16 * 4 + c / 64)) = b % 16 * 4 + c / 64 :=
            b64Index_b64Char _ (by omega)
          have i4 : b64Index (b64Char (c % 64)) = c % 64 := b64Index_b64Char _ (by omega)
          simp [base64Encode, base64Decode, h3, h4, hrest, i1, i2, i3, i4]
          omega

theorem base64Encode_injOn (k1 k2 : List Nat) (h1 : ∀ x ∈ k1, x < 256)
    (h2 : ∀ x ∈ k2, x < 256) (he : base64Encode k1 = base64Encode k2) : k1 = k2 := by
  have d1 := base64Decode_encode k1.length k1 le_rfl h1
  have d2 := base64Decode_encode k2.length k2 le_rfl h2
  rw [he, d2] at d1
  exact (Option.some.injEq _ _ ▸ d1).symm

theorem map_sanitizeChar_of_noSpecials (l : List Char) (h : noSpecials l = true) :
    l.map sanitizeChar = l := by
  induction l with
  | nil => rfl
  | cons c rest ih =>
      simp only [noSpecials, List.all_cons, Bool.and_eq_true, beq_iff_eq] at h
      simp only [List.map_cons, h.1, ih (by simpa [noSpecials] using h.2)]

/-! ### Claim C1: partition selection -/

/-- C1, counterexample.  For the six-byte ASCII key `"aaaaaa"` the partition
chosen by the store is `5`, while the claimed formula — the pure
`hash = hash*33 + c` djb2 of the bytes, absolute value, mod 16 — gives `11`.
The JavaScript `<<` truncates the accumulator to a signed 32-bit integer, so
`djb2Hash` goes negative on this key (the loop value is `-248148757`) and
`Math.abs` flips its residue mod 16. -/
theorem c1_partition_counterexample :
    getPartitionNumber [97, 97, 97, 97, 97, 97] = 5 ∧
      specDjb2 [97, 97, 97, 97, 97, 97] % 16 = 11 ∧
      djb2Loop [97, 97, 97, 97, 97, 97] = -248148757 ∧
      getPartitionNumber [97, 97, 97, 97, 97, 97] ≠
        specDjb2 [97, 97, 97, 97, 97, 97] % 16 := by
  decide

/-- C1, amended.  For every key, the partition directory used by a store save
is `|h| mod 16` where `h` is the hash the source computes (with the JavaScript
32-bit wrap inside the shift); `h` is congruent to the claimed pure djb2 value
mod 16, so the partition equals the claimed value `s = specDjb2 key % 16`
or its reflection `16 - s`.  The partition is a function of the key alone
(both `fsSave` and `fsLoad` address files only through `savePath`), so for a
fixed key it never changes across any sequence of operations. -/
theorem c1_partition_amended (key : Key) :
    (savePath key).1 = getPartitionNumber key ∧
      getPartitionNumber key = djb2Hash key % 16 ∧
      (getPartitionNumber key = specDjb2 key % 16 ∨
        getPartitionNumber key + specDjb2 key % 16 = 16) := by
  refine ⟨rfl, rfl, ?_⟩
  have hc := djb2Loop_emod16 key
  unfold getPartitionNumber djb2Hash
  omega

/-! ### Claim C2: the key-to-filename mapping -/

/-- C2, counterexample.  The distinct six-byte ASCII keys `"ab>ab?"` and
`"ab?ab>"` receive the same sanitized filename (`YWI_YWI_.json`, since `+` and
`/` are both replaced by `_`) *and* the same partition (8), hence the same
file path: the mapping is not injective and two live entries can share a
file. -/
theorem c2_injective_counterexample :
    ([97, 98, 62, 97, 98, 63] : Key) ≠ [97, 98, 63, 97, 98, 62] ∧
      sanitizeKey [97, 98, 62, 97, 98, 63] = sanitizeKey [97, 98, 63, 97, 98, 62] ∧
      savePath [97, 98, 62, 97, 98, 63] = savePath [97, 98, 63, 97, 98, 62] := by
  decide

/-- C2, amended.  The raw Base64 encoding itself is injective on byte-string
keys; the `/`, `+`, `=` → `_` replacement is what loses injectivity.  Hence
the filename mapping is injective on keys whose Base64 encoding contains none
of the three replaced characters, while distinct keys whose encodings differ
only at replaced positions (see the counterexample) collide. -/
theorem c2_injective_amended (k1 k2 : Key) (h1 : ∀ x ∈ k1, x < 256)
    (h2 : ∀ x ∈ k2, x < 256) (hn1 : noSpecials (base64Encode k1) = true)
    (hn2 : noSpecials (base64Encode k2) = true)
    (he : sanitizeKey k1 = sanitizeKey k2) : k1 = k2 := by
  apply base64Encode_injOn k1 k2 h1 h2
  have e1 := map_sanitizeChar_of_noSpecials (base64Encode k1) hn1
  have e2 := map_sanitizeChar_of_noSpecials (base64Encode k2) hn2
  unfold sanitizeKey at he
  rw [e1, e2] at he
  exact he

/-- C2, witness for the amended theorem at the key `"aaa"` (Base64 `YWFh`,
no replaced characters). -/
theorem c2_injective_amended_witness :
    (∀ x ∈ ([97, 97, 97] : Key), x < 256) ∧
      noSpecials (base64Encode [97, 97, 97]) = true ∧
      ([97, 97, 97] : Key) = [97, 97, 97] :=
  ⟨by decide, by decide,
    c2_injective_amended [97, 97, 97] [97, 97, 97] (by decide) (by decide)
      (by decide) (by decide) rfl⟩

/-! ### Lemmas on the disk model -/

theorem list_get?_set_self {α : Type _} :
    ∀ (l : List α) (i : Nat) (a : α), i < l.length → (l.set i a).get? i = some a := by
  intro l
  induction l with
  | nil => intro i a h; simp at h
  | cons x rest ih =>
      intro i a h
      cases i with
      | zero => rfl
      | succ j => simpa using ih j a (by simpa using Nat.lt_of_succ_lt_succ h)

theorem list_get?_set_ne {α : Type _} :
    ∀ (l : List α) (i j : Nat) (a : α), j ≠ i → (l.set i a).get? j = l.get? j := by
  intro l
  induction l with
  | nil => intro i j a _; simp
  | cons x rest ih =>
      intro i j a h
      cases i with
      | zero =>
          cases j with
          | zero => exact absurd rfl h
          | succ j' => rfl
      | succ i' =>
          cases j with
          | zero => rfl
          | succ j' => simpa using ih i' j' a (fun he => h (by simp [he]))

theorem partGet_nil (n : List Char) : partGet [] n = none := rfl

theorem partGet_cons (f : DFile) (rest : DiskPartition) (n : List Char) :
    partGet (f :: rest) n = if f.name = n then some f.content else partGet rest n := by
  by_cases h : f.name = n
  · simp [partGet, List.find?_cons_of_pos, h]
  · have hb : (f.name == n) = false := by simpa using h
    simp [partGet, List.find?_cons_of_neg, hb, h]

theorem partGet_partPut_self : ∀ (p : DiskPartition) (n : List Char) (c : FileContent),
    partGet (partPut p n c) n = some c := by
  intro p
  induction p with
  | nil => intro n c; simp [partPut, partGet_cons]
  | cons f rest ih =>
      intro n c
      by_cases h : f.name = n
      · simp [partPut, h, partGet_cons]
      · simp only [partPut, beq_iff_eq, if_neg h]
        rw [partGet_cons, if_neg h]
        exact ih n c

theorem partGet_partPut_ne : ∀ (p : DiskPartition) (n n' : List Char) (c : FileContent),
    n' ≠ n → partGet (partPut p n c) n' = partGet p n' := by
  intro p
  induction p with
  | nil => intro n n' c h; simp [partPut, partGet_cons, Ne.symm h]
  | cons f rest ih =>
      intro n n' c h
      by_cases hf : f.name = n
      · have hne : f.name ≠ n' := by rw [hf]; exact Ne.symm h
        simp [partPut, hf, partGet_cons, Ne.symm h, hne]
      · simp only [partPut, beq_iff_eq, if_neg hf]
        rw [partGet_cons, partGet_cons]
        by_cases hf' : f.name = n'
        · simp [hf']
        · rw [if_neg hf', if_neg hf']
          exact ih n n' c h

theorem length_diskPutFile (d : Disk) (i : Nat) (n : List Char) (c : FileContent) :
    (diskPutFile d i n c).length = d.length := by
  simp [diskPutFile]

theorem diskGetFile_diskPutFile_self (d : Disk) (i : Nat) (n : List Char) (c : FileContent)
    (h : i < d.length) : diskGetFile (diskPutFile d i n c) i n = some c := by
  unfold diskGetFile diskPutFile
  rw [list_get?_set_self _ _ _ h]
  exact partGet_partPut_self _ n c

theorem list_set_of_length_le {α : Type _} :
    ∀ (l : List α) (i : Nat) (a : α), l.length ≤ i → l.set i a = l := by
  intro l
  induction l with
  | nil => intro i a _; cases i <;> rfl
  | cons x rest ih =>
      intro i a h
      cases i with
      | zero => simp at h
      | succ j => simpa using ih j a (by simpa using Nat.le_of_succ_le_succ h)

theorem diskGetFile_diskPutFile_ne (d : Disk) (i : Nat) (n : List Char) (c : FileContent)
    (i' : Nat) (n' : List Char) (h : ¬(i' = i ∧ n' = n)) :
    diskGetFile (diskPutFile d i n c) i' n' = diskGetFile d i' n' := by
  by_cases hi : i' = i
  · subst hi
    have hn : n' ≠ n := fun he => h ⟨rfl, he⟩
    unfold diskGetFile diskPutFile
    by_cases hl : i' < d.length
    · obtain ⟨p, hg⟩ : ∃ p, d.get? i' = some p := by
        cases hg : d.get? i' with
        | none => exact absurd (List.get?_eq_none.mp hg) (by omega)
        | some p => exact ⟨p, rfl⟩
      have hD : d.getD i' [] = p := by
        simp only [List.getD, ← List.get?_eq_getElem?, hg, Option.getD_some]
      rw [list_get?_set_self _ _ _ hl, hg, hD]
      show partGet (partPut p n c) n' = partGet p n'
      exact partGet_partPut_ne _ _ _ _ hn
    · rw [list_set_of_length_le _ _ _ (by omega)]
  · unfold diskGetFile diskPutFile
    rw [list_get?_set_ne _ _ _ _ hi]

theorem partGet_filter_json_none (n : List Char) (hj : isJsonName n = true) :
    ∀ p : DiskPartition, partGet (p.filter (fun f => ¬ isJsonName f.name)) n = none := by
  intro p
  induction p with
  | nil => simp [partGet, List.find?]
  | cons f rest ih =>
      by_cases hf : isJsonName f.name
      · simpa [List.filter, hf] using ih
      · have hne : f.name ≠ n := fun he => hf (he ▸ hj)
        simpa [List.filter, hf, partGet, List.find?, hne] using ih

theorem length_fsClear (d : Disk) : (fsClear d).length = d.length := by
  simp [fsClear]

theorem diskGetFile_fsClear (d : Disk) (i : Nat) (n : List Char) (hj : isJsonName n = true) :
    diskGetFile (fsClear d) i n = none := by
  unfold diskGetFile fsClear
  rw [List.get?_map]
  cases hg : d.get? i with
  | none => rfl
  | some p => simpa using partGet_filter_json_none n hj p

theorem savePath_fst_lt (key : Key) : (savePath key).1 < 16 :=
  Nat.mod_lt _ (by norm_num)

theorem isJsonName_savePath (key : Key) : isJsonName (savePath key).2 = true := by
  have : ".json".toList <:+ sanitizeKey key ++ ".json".toList := List.suffix_append _ _
  simpa [isJsonName, savePath, List.isSuffixOf_iff_suffix] using this

/-! ### Claim C6: store save versioning -/

/-- C6: a successful `FileStorage.save` carries `createdAt` and increments
`version` from the prior file when one exists, starts at `version = 1` and
`createdAt = t1` otherwise, and stamps `updatedAt` with the write time; hence
across two successive saves of the same key the version increases by exactly
one, `createdAt` is invariant, and `updatedAt` is non-decreasing whenever the
clock is. -/
theorem c6_save_versioning (disk : Disk) (key : Key) (v : Val) (t1 t2 : Int)
    (d' : Disk) (e : SEntry) (hlen : disk.length = 16)
    (hsave : fsSave disk key v t1 t2 = .ok (d', e)) :
    e.key = key ∧ e.value = v ∧ e.updatedAt = t2 ∧
    (∀ prev, diskGetFile disk (savePath key).1 (savePath key).2 = some (.ok prev) →
      e.version = prev.version + 1 ∧ e.createdAt = prev.createdAt) ∧
    (diskGetFile disk (savePath key).1 (savePath key).2 = none →
      e.version = 1 ∧ e.createdAt = t1) ∧
    d'.length = 16 ∧
    diskGetFile d' (savePath key).1 (savePath key).2 = some (.ok e) ∧
    (∀ v' t1' t2' d'' e', fsSave d' key v' t1' t2' = .ok (d'', e') →
      e'.version = e.version + 1 ∧ e'.createdAt = e.createdAt ∧
      (t2 ≤ t2' → e.updatedAt ≤ e'.updatedAt)) := by
  have hp : (savePath key).1 < disk.length := by rw [hlen]; exact savePath_fst_lt key
  cases hfile : diskGetFile disk (savePath key).1 (savePath key).2 with
  | none =>
      simp only [fsSave, hfile] at hsave
      cases hsave
      refine ⟨rfl, rfl, rfl, ?_, ?_, ?_, ?_, ?_⟩
      · intro prev hprev; exact Option.noConfusion hprev
      · intro _; exact ⟨rfl, rfl⟩
      · rw [length_diskPutFile]; exact hlen
      · exact diskGetFile_diskPutFile_self _ _ _ _ hp
      · intro v' t1' t2' d'' e' hsave'
        have hfile' := diskGetFile_diskPutFile_self disk (savePath key).1 (savePath key).2
          (.ok ⟨key, v, t1, t2, 1⟩) hp
        simp only [fsSave, hfile'] at hsave'
        cases hsave'
        exact ⟨rfl, rfl, fun h => h⟩
  | some content =>
      cases content with
      | corrupt =>
          simp only [fsSave, hfile] at hsave
          exact Except.noConfusion hsave
      | ok prev =>
          simp only [fsSave, hfile] at hsave
          cases hsave
          refine ⟨rfl, rfl, rfl, ?_, ?_, ?_, ?_, ?_⟩
          · intro prev' hprev
            have h1 : prev = prev' := FileContent.ok.inj (Option.some.inj hprev)
            subst h1
            exact ⟨rfl, rfl⟩
          · intro hnone; exact Option.noConfusion hnone
          · rw [length_diskPutFile]; exact hlen
          · exact diskGetFile_diskPutFile_self _ _ _ _ hp
          · intro v' t1' t2' d'' e' hsave'
            have hfile' := diskGetFile_diskPutFile_self disk (savePath key).1 (savePath key).2
              (.ok ⟨key, v, prev.createdAt, t2, prev.version + 1⟩) hp
            simp only [fsSave, hfile'] at hsave'
            cases hsave'
            exact ⟨rfl, rfl, fun h => h⟩

/-- C6, witness: saving the fresh key `"k"` on an empty 16-partition store at
times `t1 = 10`, `t2 = 10` yields version 1 and `createdAt = 10`. -/
theorem c6_save_versioning_witness :
    (List.replicate 16 ([] : DiskPartition)).length = 16 ∧
      (⟨[107], 5, 10, 10, 1⟩ : SEntry).version = 1 ∧
      (⟨[107], 5, 10, 10, 1⟩ : SEntry).createdAt = 10 :=
  ⟨by decide,
    (c6_save_versioning (List.replicate 16 ([] : DiskPartition)) [107] 5 10 10
      ((List.replicate 16 ([] : DiskPartition)).set 0
        [⟨"aw__.json".toList, .ok ⟨[107], 5, 10, 10, 1⟩⟩])
      ⟨[107], 5, 10, 10, 1⟩ (by decide) (by rfl)).2.2.2.2.1 (by rfl)⟩

/-! ### Claim C8: list() and unparseable files -/

theorem listPartition_mem (e : SEntry) :
    ∀ (part : DiskPartition) (j : Nat) (f : DFile),
      part.get? j = some f → isJsonName f.name = true → f.content = .ok e →
      (∀ j' f', j' < j → part.get? j' = some f' →
        ¬(isJsonName f'.name = true ∧ f'.content = .corrupt)) →
      e.key ∈ listPartition part := by
  intro part
  induction part with
  | nil => intro j f hf _ _ _; simp at hf
  | cons f0 rest ih =>
      intro j f hf hjson hok hclean
      cases j with
      | zero =>
          have hf0 : f0 = f := by simpa using hf
          subst hf0
          simp [listPartition, hjson, hok]
      | succ j' =>
          have hf' : rest.get? j' = some f := by simpa using hf
          have hrest : e.key ∈ listPartition rest :=
            ih j' f hf' hjson hok (fun j'' f'' hlt hg =>
              hclean (j'' + 1) f'' (by omega) (by simpa using hg))
          by_cases hj0 : isJsonName f0.name
          · cases hc : f0.content with
            | corrupt => exact absurd ⟨hj0, hc⟩ (hclean 0 f0 (by omega) rfl)
            | ok e0 => simp [listPartition, hj0, hc, hrest]
          · simpa [listPartition, hj0] using hrest

/-- C8, counterexample.  In `demoDiskCorrupt` exactly one file fails to
parse, and a parseable `b.json` with key `"k"` sits after it in the same
partition; yet `list()` returns `[]` — the per-partition `try/catch` makes
the parse failure abort the rest of that partition's scan, so the parseable
key is missing from the listing. -/
theorem c8_list_counterexample :
    demoDiskCorrupt.flatten.countP (fun f => decide (f.content = .corrupt)) = 1 ∧
      demoDiskCorrupt.get? 0 =
        some [⟨"a.json".toList, .corrupt⟩, ⟨"b.json".toList, .ok ⟨[107], 1, 0, 0, 1⟩⟩] ∧
      listKeys demoDiskCorrupt = [] ∧
      ¬([107] ∈ listKeys demoDiskCorrupt) := by
  decide

/-- C8, amended.  `list()` never fails, and it returns the key of every
parseable `.json` file that is not preceded, within its own partition
directory, by a file that fails to parse; a parse failure skips the remaining
files of that partition only, and other partitions are unaffected. -/
theorem c8_list_amended (disk : Disk) (i : Nat) (part : DiskPartition) (j : Nat)
    (f : DFile) (e : SEntry) (hpart : disk.get? i = some part)
    (hf : part.get? j = some f) (hjson : isJsonName f.name = true)
    (hok : f.content = .ok e)
    (hclean : ∀ j' f', j' < j → part.get? j' = some f' →
      ¬(isJsonName f'.name = true ∧ f'.content = .corrupt)) :
    e.key ∈ listKeys disk := by
  have h1 : e.key ∈ listPartition part := listPartition_mem e part j f hf hjson hok hclean
  have hpm : part ∈ disk := List.get?_mem hpart
  have h2 : listPartition part ∈ disk.map listPartition := List.mem_map_of_mem _ hpm
  unfold listKeys
  exact List.mem_flatten.mpr ⟨_, h2, h1⟩

/-- C8, witness for the amended theorem: the single parseable file of
`demoDiskOk` has its key listed. -/
theorem c8_list_amended_witness :
    demoDiskOk.get? 0 = some [⟨"b.json".toList, .ok ⟨[107], 1, 0, 0, 1⟩⟩] ∧
      [107] ∈ listKeys demoDiskOk :=
  ⟨by decide,
    c8_list_amended demoDiskOk 0 [⟨"b.json".toList, .ok ⟨[107], 1, 0, 0, 1⟩⟩] 0
      ⟨"b.json".toList, .ok ⟨[107], 1, 0, 0, 1⟩⟩ ⟨[107], 1, 0, 0, 1⟩
      (by decide) (by decide) (by decide) (by decide) (fun j' f' hlt _ => by omega)⟩

/-! ### Claim C3: compaction -/

theorem lookupByKey_nil (k : Key) : lookupByKey [] k = none := rfl

theorem lookupByKey_cons (x : SEntry) (m : List SEntry) (k : Key) :
    lookupByKey (x :: m) k = if x.key = k then some x else lookupByKey m k := by
  by_cases h : x.key = k
  · simp [lookupByKey, List.find?_cons_of_pos, h]
  · have hb : (x.key == k) = false := by simpa using h
    simp [lookupByKey, List.find?_cons_of_neg, hb, h]

theorem lookupByKey_mapSetEntry_self :
    ∀ (m : List SEntry) (e : SEntry), lookupByKey (mapSetEntry m e) e.key = some e := by
  intro m
  induction m with
  | nil => intro e; simp [mapSetEntry, lookupByKey_cons]
  | cons x rest ih =>
      intro e
      by_cases h : x.key = e.key
      · simp [mapSetEntry, h, lookupByKey_cons]
      · simp only [mapSetEntry, beq_iff_eq, if_neg h]
        rw [lookupByKey_cons, if_neg h]
        exact ih e

theorem lookupByKey_mapSetEntry_ne :
    ∀ (m : List SEntry) (e : SEntry) (k : Key), k ≠ e.key →
      lookupByKey (mapSetEntry m e) k = lookupByKey m k := by
  intro m
  induction m with
  | nil => intro e k h; simp [mapSetEntry, lookupByKey_cons, Ne.symm h]
  | cons x rest ih =>
      intro e k h
      by_cases hx : x.key = e.key
      · have hxk : x.key ≠ k := by rw [hx]; exact Ne.symm h
        simp [mapSetEntry, hx, lookupByKey_cons, Ne.symm h, hxk]
      · simp only [mapSetEntry, beq_iff_eq, if_neg hx]
        rw [lookupByKey_cons, lookupByKey_cons]
        by_cases hx' : x.key = k
        · simp [hx']
        · rw [if_neg hx', if_neg hx']
          exact ih e k h

theorem keyMapFold_lookup_gen (k : Key) :
    ∀ (entries : List SEntry) (m : List SEntry),
      lookupByKey
        (entries.foldl
          (fun m e =>
            match lookupByKey m e.key with
            | none => mapSetEntry m e
            | some ex => if ex.version < e.version then mapSetEntry m e else m)
          m) k =
      entries.foldl
        (fun acc e =>
          if e.key == k then
            match acc with
            | none => some e
            | some a => if a.version < e.version then some e else acc
          else acc)
        (lookupByKey m k) := by
  intro entries
  induction entries with
  | nil => intro m; rfl
  | cons e rest ih =>
      intro m
      simp only [List.foldl_cons]
      rw [ih]
      congr 1
      by_cases hk : e.key = k
      · subst hk
        simp only [beq_self_eq_true, if_pos]
        cases hm : lookupByKey m e.key with
        | none => simp [lookupByKey_mapSetEntry_self]
        | some ex =>
            by_cases hv : ex.version < e.version
            · simp [hv, lookupByKey_mapSetEntry_self]
            · simp [hv, hm]
      · have hb : (e.key == k) = false := by simpa using hk
        rw [hb]
        simp only [Bool.false_eq_true, if_false]
        cases hm : lookupByKey m e.key with
        | none => exact lookupByKey_mapSetEntry_ne m e k (Ne.symm hk)
        | some ex =>
            by_cases hv : ex.version < e.version
            · simp only [hv, if_pos]
              exact lookupByKey_mapSetEntry_ne m e k (Ne.symm hk)
            · simp [hv]

theorem keyMapFold_lookup (entries : List SEntry) (k : Key) :
    lookupByKey (keyMapFold entries) k = selectKey k entries :=
  keyMapFold_lookup_gen k entries []

theorem mem_mapSetEntry :
    ∀ (m : List SEntry) (e x : SEntry), x ∈ mapSetEntry m e → x = e ∨ x ∈ m := by
  intro m
  induction m with
  | nil => intro e x hx; simpa [mapSetEntry] using hx
  | cons y rest ih =>
      intro e x hx
      by_cases hy : y.key = e.key
      · simp only [mapSetEntry, beq_iff_eq, if_pos hy] at hx
        rcases List.mem_cons.mp hx with h | h
        · exact Or.inl h
        · exact Or.inr (List.mem_cons_of_mem _ h)
      · simp only [mapSetEntry, beq_iff_eq, if_neg hy] at hx
        rcases List.mem_cons.mp hx with h | h
        · exact Or.inr (h ▸ List.mem_cons_self _ _)
        · rcases ih e x h with h' | h'
          · exact Or.inl h'
          · exact Or.inr (List.mem_cons_of_mem _ h')

theorem keys_mapSetEntry :
    ∀ (m : List SEntry) (e : SEntry),
      (mapSetEntry m e).map (fun x => x.key) =
        if (lookupByKey m e.key).isSome then m.map (fun x => x.key)
        else m.map (fun x => x.key) ++ [e.key] := by
  intro m
  induction m with
  | nil => intro e; simp [mapSetEntry, lookupByKey_nil]
  | cons y rest ih =>
      intro e
      by_cases hy : y.key = e.key
      · simp [mapSetEntry, hy, lookupByKey_cons]
      · simp only [mapSetEntry, beq_iff_eq, if_neg hy, List.map_cons,
          lookupByKey_cons, if_neg hy]
        rw [ih e]
        by_cases hs : (lookupByKey rest e.key).isSome
        · simp [hs]
        · simp [hs]

theorem lookupByKey_isSome_iff :
    ∀ (m : List SEntry) (k : Key),
      (lookupByKey m k).isSome ↔ k ∈ m.map (fun x => x.key) := by
  intro m
  induction m with
  | nil => intro k; simp [lookupByKey_nil]
  | cons y rest ih =>
      intro k
      rw [lookupByKey_cons]
      by_cases hy : y.key = k
      · simp [hy]
      · simp [hy, ih k, Ne.symm hy]

theorem keyMapFold_keys_nodup_gen :
    ∀ (entries : List SEntry) (m : List SEntry),
      (m.map (fun x => x.key)).Nodup →
      ((entries.foldl
          (fun m e =>
            match lookupByKey m e.key with
            | none => mapSetEntry m e
            | some ex => if ex.version < e.version then mapSetEntry m e else m)
          m).map (fun x => x.key)).Nodup := by
  intro entries
  induction entries with
  | nil => intro m hm; exact hm
  | cons e rest ih =>
      intro m hm
      simp only [List.foldl_cons]
      apply ih
      cases hl : lookupByKey m e.key with
      | none =>
          rw [keys_mapSetEntry, hl]
          simp only [Option.isSome_none, Bool.false_eq_true, if_false]
          have hnm : e.key ∉ m.map (fun x => x.key) := by
            intro hmem
            have : (lookupByKey m e.key).isSome := (lookupByKey_isSome_iff m e.key).mpr hmem
            rw [hl] at this
            simp at this
          simpa using List.Nodup.append hm (by simp) (by simpa using hnm)
      | some ex =>
          by_cases hv : ex.version < e.version
          · simp only [hv, if_pos]
            rw [keys_mapSetEntry, hl]
            simpa using hm
          · simpa [hv] using hm

theorem keyMapFold_keys_nodup (entries : List SEntry) :
    ((keyMapFold entries).map (fun x => x.key)).Nodup :=
  keyMapFold_keys_nodup_gen entries [] (by simp)

theorem lookupByKey_mem_key (m : List SEntry) (k : Key) (e : SEntry)
    (h : lookupByKey m k = some e) : e ∈ m ∧ e.key = k := by
  unfold lookupByKey at h
  cases hf : m.find? (fun x => x.key == k) with
  | none => rw [hf] at h; cases h
  | some x =>
      rw [hf] at h
      have hx : x = e := by simpa using h
      subst hx
      refine ⟨List.mem_of_find?_eq_some hf, ?_⟩
      have := List.find?_some hf
      simpa using this

theorem saveAll_fresh (t : Int) :
    ∀ (kept : List SEntry) (d0 : Disk), d0.length = 16 →
      (kept.map (fun e => savePath e.key)).Nodup →
      (∀ e ∈ kept, diskGetFile d0 (savePath e.key).1 (savePath e.key).2 = none) →
      ∃ dF, saveAll d0 kept t = .ok dF ∧ dF.length = 16 ∧
        (∀ e ∈ kept, diskGetFile dF (savePath e.key).1 (savePath e.key).2 =
          some (.ok ⟨e.key, e.value, t, t, 1⟩)) ∧
        (∀ i n, (∀ e ∈ kept, ¬(i = (savePath e.key).1 ∧ n = (savePath e.key).2)) →
          diskGetFile dF i n = diskGetFile d0 i n) := by
  intro kept
  induction kept with
  | nil =>
      intro d0 hlen _ _
      exact ⟨d0, rfl, hlen, by simp, fun i n _ => rfl⟩
  | cons e rest ih =>
      intro d0 hlen hnodup hfresh
      have hre : diskGetFile d0 (savePath e.key).1 (savePath e.key).2 = none :=
        hfresh e (List.mem_cons_self _ _)
      have hp : (savePath e.key).1 < d0.length := by
        rw [hlen]; exact savePath_fst_lt e.key
      have hnodupc := hnodup
      rw [List.map_cons, List.nodup_cons] at hnodupc
      have hnodup' : (rest.map (fun e => savePath e.key)).Nodup := hnodupc.2
      have hhead : ∀ e' ∈ rest, savePath e'.key ≠ savePath e.key := by
        intro e' he' hcontra
        exact hnodupc.1 (List.mem_map.mpr ⟨e', he', hcontra⟩)
      set d1 := diskPutFile d0 (savePath e.key).1 (savePath e.key).2
        (.ok ⟨e.key, e.value, t, t, 1⟩) with hd1
      have hd1len : d1.length = 16 := by rw [hd1, length_diskPutFile]; exact hlen
      have hfresh1 : ∀ e' ∈ rest,
          diskGetFile d1 (savePath e'.key).1 (savePath e'.key).2 = none := by
        intro e' he'
        rw [hd1, diskGetFile_diskPutFile_ne]
        · exact hfresh e' (List.mem_cons_of_mem _ he')
        · intro ⟨h1, h2⟩
          exact hhead e' he' (Prod.ext h1 h2)
      obtain ⟨dF, hrun, hFlen, hmem, hframe⟩ := ih d1 hd1len hnodup' hfresh1
      refine ⟨dF, ?_, hFlen, ?_, ?_⟩
      · show saveAll d0 (e :: rest) t = .ok dF
        unfold saveAll at hrun ⊢
        rw [List.foldlM_cons]
        simp only [fsSave, hre, Except.map]
        exact hrun
      · intro e' he'
        rcases List.mem_cons.mp he' with h | h
        · subst h
          rw [hframe _ _ (fun x hx ⟨h1, h2⟩ => hhead x hx (Prod.ext h1 h2).symm), hd1]
          exact diskGetFile_diskPutFile_self _ _ _ _ hp
        · exact hmem e' h
      · intro i n havoid
        rw [hframe i n (fun x hx => havoid x (List.mem_cons_of_mem _ hx)), hd1,
          diskGetFile_diskPutFile_ne]
        exact havoid e (List.mem_cons_self _ _)

/-- C3, counterexample.  `demoDiskTie` holds two parseable entries for the
same key `"k"` with equal versions, values 1 then 2 in scan order.  The
claimed tie-break ("last one seen wins") would keep value 2, but
`compact` keeps the *first* one seen (the grouping loop only replaces on a
strictly greater version): after compaction, loading `"k"` yields value 1
with version renumbered to 1. -/
theorem c3_compact_counterexample :
    allEntries demoDiskTie = [⟨[107], 1, 0, 0, 1⟩, ⟨[107], 2, 0, 0, 1⟩] ∧
      (compact demoDiskTie [] 5).map (fun r => fsLoad r.disk [107]) =
        .ok (.ok (some ⟨[107], 1, 5, 5, 1⟩)) ∧
      (⟨[107], 1, 5, 5, 1⟩ : SEntry).value ≠ (⟨[107], 2, 0, 0, 1⟩ : SEntry).value := by
  refine ⟨by decide, by rfl, by decide⟩

/-- C3, amended.  For every 16-partition store state whose kept entries map
to pairwise distinct file paths, `compact` succeeds, empties the read cache,
keeps exactly one entry per key — namely the *first* entry of maximal version
in scan order (on equal versions the first one seen wins, not the last) — and
stores every surviving key with its kept value and version renumbered to 1. -/
theorem c3_compact_amended (disk : Disk) (rc : List (Key × SEntry)) (t : Int)
    (hlen : disk.length = 16)
    (hpaths : ((keyMapFold (allEntries disk)).map (fun e => savePath e.key)).Nodup) :
    ∃ res, compact disk rc t = .ok res ∧ res.readCache = [] ∧
      ((keyMapFold (allEntries disk)).map (fun e => e.key)).Nodup ∧
      (∀ k e, selectKey k (allEntries disk) = some e →
        fsLoad res.disk k = .ok (some ⟨k, e.value, t, t, 1⟩)) := by
  have hclen : (fsClear disk).length = 16 := by rw [length_fsClear]; exact hlen
  have hfresh : ∀ e ∈ keyMapFold (allEntries disk),
      diskGetFile (fsClear disk) (savePath e.key).1 (savePath e.key).2 = none := by
    intro e _
    exact diskGetFile_fsClear _ _ _ (isJsonName_savePath e.key)
  obtain ⟨dF, hrun, _, hmem, _⟩ :=
    saveAll_fresh t (keyMapFold (allEntries disk)) (fsClear disk) hclen hpaths hfresh
  refine ⟨⟨dF, []⟩, ?_, rfl, keyMapFold_keys_nodup _, ?_⟩
  · unfold compact
    rw [hrun]
    rfl
  · intro k e hsel
    rw [← keyMapFold_lookup] at hsel
    obtain ⟨hin, hkey⟩ := lookupByKey_mem_key _ _ _ hsel
    have := hmem e hin
    rw [hkey] at this
    unfold fsLoad
    rw [this]

/-- C3, witness for the amended theorem: compacting a store with a single
entry for key `"k"` (version 3, value 7) at time `t = 5`. -/
theorem c3_compact_amended_witness :
    ((emptyDisk16.set 0 [⟨"x.json".toList, .ok ⟨[107], 7, 0, 0, 3⟩⟩]) : Disk).length = 16 ∧
      ((keyMapFold (allEntries
        (emptyDisk16.set 0 [⟨"x.json".toList, .ok ⟨[107], 7, 0, 0, 3⟩⟩]))).map
          (fun e => savePath e.key)).Nodup ∧
      (∃ res, compact (emptyDisk16.set 0 [⟨"x.json".toList, .ok ⟨[107], 7, 0, 0, 3⟩⟩]) [] 5 =
          .ok res ∧ res.readCache = [] ∧
        ((keyMapFold (allEntries
          (emptyDisk16.set 0 [⟨"x.json".toList, .ok ⟨[107], 7, 0, 0, 3⟩⟩]))).map
            (fun e => e.key)).Nodup ∧
        (∀ k e, selectKey k (allEntries
            (emptyDisk16.set 0 [⟨"x.json".toList, .ok ⟨[107], 7, 0, 0, 3⟩⟩])) = some e →
          fsLoad res.disk k = .ok (some ⟨k, e.value, 5, 5, 1⟩))) :=
  ⟨by decide, by decide,
    c3_compact_amended (emptyDisk16.set 0 [⟨"x.json".toList, .ok ⟨[107], 7, 0, 0, 3⟩⟩])
      [] 5 (by decide) (by decide)⟩

/-! ### Claim C9: clear() discards the write queue -/

/-- The invariant propagated after a `clearQ`: the dropped operation is gone
from the queue, is not in flight, was never written/settled, and its promise
id is stale (below the fresh-id supply), so no later `save` can recreate
it. -/
def SMDropped (op : QueueOp) (t : SMState) : Prop :=
  op ∉ t.queue ∧ t.current ≠ some op ∧ op ∉ t.written ∧ op.id < t.nextId

theorem smStep_preserves_dropped (op : QueueOp) (t : SMState) (ev : SMEvent)
    (h : SMDropped op t) : SMDropped op (smStep t ev) := by
  obtain ⟨hq, hc, hw, hid⟩ := h
  cases ev with
  | save k v =>
      refine ⟨?_, hc, hw, by simp [smStep]; omega⟩
      intro hmem
      simp only [smStep] at hmem
      rcases List.mem_append.mp hmem with h | h
      · exact hq h
      · have : op = ⟨t.nextId, k, v⟩ := by simpa using h
        rw [this] at hid
        simp at hid
  | take =>
      simp only [smStep]
      cases hcur : t.current with
      | some c => exact ⟨hq, hc, hw, hid⟩
      | none =>
          cases hqq : t.queue with
          | nil => exact ⟨hq, hc, hw, hid⟩
          | cons h0 rest =>
              refine ⟨?_, ?_, hw, hid⟩
              · intro hmem
                exact hq (by rw [hqq]; exact List.mem_cons_of_mem _ hmem)
              · intro hcontra
                have : h0 = op := by simpa using hcontra
                exact hq (by rw [hqq, this]; exact List.mem_cons_self _ _)
  | finish =>
      simp only [smStep]
      cases hcur : t.current with
      | none => exact ⟨hq, hc, hw, hid⟩
      | some c =>
          refine ⟨hq, by simp, ?_, hid⟩
          intro hmem
          rcases List.mem_append.mp hmem with h | h
          · exact hw h
          · have : op = c := by simpa using h
            rw [hcur, ← this] at hc
            exact hc rfl
  | clearQ => exact ⟨by simp [smStep], hc, hw, hid⟩

theorem smRun_preserves_dropped (op : QueueOp) :
    ∀ (evs : List SMEvent) (t : SMState), SMDropped op t → SMDropped op (smRun t evs) := by
  intro evs
  induction evs with
  | nil => intro t h; exact h
  | cons ev rest ih =>
      intro t h
      exact ih (smStep t ev) (smStep_preserves_dropped op t ev h)

/-- C9: `StorageManager.clear()` rebinds `writeQueue` to a fresh empty array
(config.ts:192), so every save still in the queue at that moment is dropped:
in every continuation of the run, its write never reaches the disk and its
promise is never resolved nor rejected.  The hypotheses say the operation is
pending (`hq`), its promise id was issued by this manager (`hid`), it is not
the write currently in flight (`hcur`), and it has not already been settled
(`hw`) — all true of any enqueued-but-unprocessed operation in a real run. -/
theorem c9_clear_discards_queue (s : SMState) (op : QueueOp) (evs : List SMEvent)
    (hq : op ∈ s.queue) (hid : op.id < s.nextId)
    (hcur : s.current ≠ some op) (hw : op ∉ s.written) :
    op ∉ (smRun (smStep s .clearQ) evs).queue ∧
      (smRun (smStep s .clearQ) evs).current ≠ some op ∧
      op ∉ (smRun (smStep s .clearQ) evs).written := by
  have h0 : SMDropped op (smStep s .clearQ) := ⟨by simp [smStep], hcur, hw, hid⟩
  obtain ⟨h1, h2, h3, _⟩ := smRun_preserves_dropped op evs _ h0
  exact ⟨h1, h2, h3⟩

/-- C9, witness: the pending write with promise id 0 for key `"k"` is dropped
by `clear` and stays unwritten and unsettled across a later save, take and
finish. -/
theorem c9_clear_discards_queue_witness :
    (⟨0, [107], 1⟩ : QueueOp) ∈ (⟨[⟨0, [107], 1⟩], none, [], 1⟩ : SMState).queue ∧
      (⟨0, [107], 1⟩ : QueueOp) ∉
        (smRun (smStep ⟨[⟨0, [107], 1⟩], none, [], 1⟩ .clearQ)
          [.save [108] 2, .take, .finish]).written :=
  ⟨by decide,
    (c9_clear_discards_queue ⟨[⟨0, [107], 1⟩], none, [], 1⟩ ⟨0, [107], 1⟩
      [.save [108] 2, .take, .finish] (by decide) (by decide) (by decide) (by decide)).2.2⟩

/-! ### Lemmas on the cache table -/

theorem tblGet_nil (k : Key) : tblGet [] k = none := rfl

theorem tblGet_cons (p : Key × CEntry) (rest : List (Key × CEntry)) (k : Key) :
    tblGet (p :: rest) k = if p.1 = k then some p.2 else tblGet rest k := by
  by_cases h : p.1 = k
  · simp [tblGet, List.find?_cons_of_pos, h]
  · have hb : (p.1 == k) = false := by simpa using h
    simp [tblGet, List.find?_cons_of_neg, hb, h]

theorem tblGet_tblSet_self :
    ∀ (t : List (Key × CEntry)) (k : Key) (e : CEntry), tblGet (tblSet t k e) k = some e := by
  intro t
  induction t with
  | nil => intro k e; simp [tblSet, tblGet_cons]
  | cons p rest ih =>
      intro k e
      by_cases h : p.1 = k
      · simp [tblSet, h, tblGet_cons]
      · simp only [tblSet, beq_iff_eq, if_neg h]
        rw [tblGet_cons, if_neg h]
        exact ih k e

theorem tblGet_tblSet_ne :
    ∀ (t : List (Key × CEntry)) (k : Key) (e : CEntry) (k' : Key), k' ≠ k →
      tblGet (tblSet t k e) k' = tblGet t k' := by
  intro t
  induction t with
  | nil => intro k e k' h; simp [tblSet, tblGet_cons, Ne.symm h]
  | cons p rest ih =>
      intro k e k' h
      by_cases hp : p.1 = k
      · have hp' : p.1 ≠ k' := by rw [hp]; exact Ne.symm h
        simp [tblSet, hp, tblGet_cons, Ne.symm h, hp']
      · simp only [tblSet, beq_iff_eq, if_neg hp]
        rw [tblGet_cons, tblGet_cons]
        by_cases hp' : p.1 = k'
        · simp [hp']
        · rw [if_neg hp', if_neg hp']
          exact ih k e k' h

theorem keys_tblSet :
    ∀ (t : List (Key × CEntry)) (k : Key) (e : CEntry),
      (tblSet t k e).map Prod.fst =
        if (tblGet t k).isSome then t.map Prod.fst else t.map Prod.fst ++ [k] := by
  intro t
  induction t with
  | nil => intro k e; simp [tblSet, tblGet_nil]
  | cons p rest ih =>
      intro k e
      by_cases h : p.1 = k
      · simp [tblSet, h, tblGet_cons]
      · simp only [tblSet, beq_iff_eq, if_neg h, List.map_cons, tblGet_cons, if_neg h]
        rw [ih k e]
        by_cases hs : (tblGet rest k).isSome
        · simp [hs]
        · simp [hs]

theorem tblGet_isSome_iff :
    ∀ (t : List (Key × CEntry)) (k : Key),
      (tblGet t k).isSome ↔ k ∈ t.map Prod.fst := by
  intro t
  induction t with
  | nil => intro k; simp [tblGet_nil]
  | cons p rest ih =>
      intro k
      rw [tblGet_cons]
      by_cases h : p.1 = k
      · simp [h]
      · simp [h, ih k, Ne.symm h]

theorem keys_tblDel :
    ∀ (t : List (Key × CEntry)) (k : Key),
      (tblDel t k).map Prod.fst = (t.map Prod.fst).erase k := by
  intro t
  induction t with
  | nil => intro k; rfl
  | cons p rest ih =>
      intro k
      by_cases h : p.1 = k
      · have hb : (p.1 == k) = true := by simpa using h
        simp [tblDel, List.eraseP_cons, hb, List.map_cons, List.erase_cons, h]
      · have hb : (p.1 == k) = false := by simpa using h
        simp only [tblDel, List.eraseP_cons, hb, cond_false, List.map_cons,
          List.erase_cons, Bool.false_eq_true, if_false, List.cons.injEq]
        exact ⟨trivial, ih k⟩

theorem length_tblSet (t : List (Key × CEntry)) (k : Key) (e : CEntry) :
    (tblSet t k e).length = if (tblGet t k).isSome then t.length else t.length + 1 := by
  have h := congrArg List.length (keys_tblSet t k e)
  simpa using (by
    by_cases hs : (tblGet t k).isSome
    · rw [if_pos hs] at h; simpa [hs] using h
    · rw [if_neg hs] at h; simpa [hs] using h : _)

theorem length_tblDel (t : List (Key × CEntry)) (k : Key) :
    (tblDel t k).length =
      if (tblGet t k).isSome then t.length - 1 else t.length := by
  have h := congrArg List.length (keys_tblDel t k)
  by_cases hs : (tblGet t k).isSome
  · have hmem : k ∈ t.map Prod.fst := (tblGet_isSome_iff t k).mp hs
    rw [List.length_erase_of_mem hmem] at h
    simpa [hs] using h
  · have hmem : k ∉ t.map Prod.fst := fun hm => hs ((tblGet_isSome_iff t k).mpr hm)
    rw [List.erase_of_not_mem hmem] at h
    simpa [hs] using h

/-! ### Claim C5: the LRU eviction scenario -/

/-- C5: with `max_size = 3` and nothing expiring, the scenario
`set a 1; set b 2; set c 3; get a; set d 4` evicts exactly the
least-recently-used key `b` (the `get` promoted `a`): afterwards `a`, `c`,
`d` are present with their values, `b` is gone, `evictions = 1` and
`size = 3`.  Keys are the byte strings of `"a".."d"`; all operations run at
time 0 with the default TTL 3600, so no entry expires. -/
theorem c5_lru_eviction_scenario :
    (getOp (runOps (initCM 3 3600)
        [.set [97] 1 none 0, .set [98] 2 none 0, .set [99] 3 none 0,
         .get [97] 0, .set [100] 4 none 0]) [97] 0).1 = some 1 ∧
    (getOp (runOps (initCM 3 3600)
        [.set [97] 1 none 0, .set [98] 2 none 0, .set [99] 3 none 0,
         .get [97] 0, .set [100] 4 none 0, .get [97] 0]) [98] 0).1 = none ∧
    (getOp (runOps (initCM 3 3600)
        [.set [97] 1 none 0, .set [98] 2 none 0, .set [99] 3 none 0,
         .get [97] 0, .set [100] 4 none 0, .get [97] 0, .get [98] 0]) [99] 0).1 = some 3 ∧
    (getOp (runOps (initCM 3 3600)
        [.set [97] 1 none 0, .set [98] 2 none 0, .set [99] 3 none 0,
         .get [97] 0, .set [100] 4 none 0, .get [97] 0, .get [98] 0, .get [99] 0])
      [100] 0).1 = some 4 ∧
    (runOps (initCM 3 3600)
        [.set [97] 1 none 0, .set [98] 2 none 0, .set [99] 3 none 0,
         .get [97] 0, .set [100] 4 none 0]).evictions = 1 ∧
    cacheSize (runOps (initCM 3 3600)
        [.set [97] 1 none 0, .set [98] 2 none 0, .set [99] 3 none 0,
         .get [97] 0, .set [100] 4 none 0]) = 3 := by
  decide

/-! ### Claim C7: hit/miss accounting and the hit rate -/

/-- C7: every `get` that returns a value increments `hits` by exactly one and
leaves `misses` unchanged; every `get` that returns none (missing or lazily
expired) increments `misses` by exactly one and leaves `hits` unchanged; and
`getStats` reports `hitRate = round(100·hits/(hits+misses), 2)` percent, or 0
when the denominator is 0. -/
theorem c7_hit_miss_accounting (s : CMState) (k : Key) (now : Int) :
    (getOp s k now).2.hits = s.hits + (if (getOp s k now).1.isSome then 1 else 0) ∧
    (getOp s k now).2.misses = s.misses + (if (getOp s k now).1.isSome then 0 else 1) ∧
    statsHitRate s =
      (if s.hits + s.misses = 0 then 0
       else (jsRound ((100 * (s.hits : ℚ) / ((s.hits : ℚ) + (s.misses : ℚ))) * 100) : ℚ) / 100) := by
  refine ⟨?_, ?_, ?_⟩
  · cases hget : tblGet s.table k with
    | none => simp [getOp, hget]
    | some e =>
        by_cases hexp : isExpired e.expiresAt now
        · have hstats : ((deleteOp s k).2).hits = s.hits := by
            by_cases hc : k ∈ s.lruMap <;> simp [deleteOp, hc]
          simp [getOp, hget, hexp, hstats]
        · by_cases hc : k ∈ s.lruMap <;> simp [getOp, hget, hexp, hc]
  · cases hget : tblGet s.table k with
    | none => simp [getOp, hget]
    | some e =>
        by_cases hexp : isExpired e.expiresAt now
        · have hstats : ((deleteOp s k).2).misses = s.misses := by
            by_cases hc : k ∈ s.lruMap <;> simp [deleteOp, hc]
          simp [getOp, hget, hexp, hstats]
        · by_cases hc : k ∈ s.lruMap <;> simp [getOp, hget, hexp, hc]
  · simp only [statsHitRate]
    by_cases h0 : s.hits + s.misses = 0
    · rw [if_pos h0, if_neg (by omega : ¬ 0 < s.hits + s.misses)]
      norm_num [jsRound]
    · rw [if_neg h0, if_pos (by omega : 0 < s.hits + s.misses)]
      congr 2
      push_cast
      ring_nf

/-! ### Claim C10: non-positive TTLs -/

/-- C10: the engine accepts a non-positive TTL without failing.  For every
`ttl ≤ 0`, `set(key, value, ttl)` stores an entry with no `expiresAt` (it
never expires, exactly as for `ttl = 0`, whose expiration is also `none`),
and `updateTtl(key, ttl)` on a live (present, unexpired) key returns `true`
and clears the expiry, again exactly as `ttl = 0` would. -/
theorem c10_nonpositive_ttl (s : CMState) (k : Key) (v : Val) (ttl now : Int)
    (httl : ttl ≤ 0) :
    calculateExpiration ttl now = none ∧
    calculateExpiration ttl now = calculateExpiration 0 now ∧
    tblGet (setOp s k v (some ttl) now).table k = some ⟨k, v, ttl, now, none, now⟩ ∧
    (∀ e, tblGet s.table k = some e → isExpired e.expiresAt now = false →
      (updateTTLOp s k ttl now).1 = true ∧
      (updateTTLOp s k 0 now).1 = true ∧
      tblGet (updateTTLOp s k ttl now).2.table k =
        some { e with ttl := ttl, expiresAt := none }) := by
  have hexp : calculateExpiration ttl now = none := by
    simp [calculateExpiration, httl]
  refine ⟨hexp, by simp [hexp, calculateExpiration, httl], ?_, ?_⟩
  · unfold setOp
    by_cases hc : s.lruMap.contains k
    · simp only [hc, if_true, hexp, Option.getD_some]
      exact tblGet_tblSet_self _ _ _
    · simp only [hc, Bool.false_eq_true, if_false, hexp, Option.getD_some]
      exact tblGet_tblSet_self _ _ _
  · intro e hget hlive
    refine ⟨?_, ?_, ?_⟩
    · simp [updateTTLOp, hget, hlive]
    · simp [updateTTLOp, hget, hlive]
    · simp only [updateTTLOp, hget, hlive, Bool.false_eq_true, if_false]
      rw [hexp]
      exact tblGet_tblSet_self _ _ _

/-- C10, witness at `ttl = -7` on a cache holding the never-expiring key
`"a"`. -/
theorem c10_nonpositive_ttl_witness :
    (-7 : Int) ≤ 0 ∧
      tblGet (setOp (initCM 3 0) [97] 1 (some 0) 5).table [97] =
        some ⟨[97], 1, 0, 5, none, 5⟩ ∧
      isExpired (none : Option Int) 5 = false ∧
      (updateTTLOp (setOp (initCM 3 0) [97] 1 (some 0) 5) [97] (-7) 5).1 = true :=
  ⟨by decide, by decide, by decide,
    ((c10_nonpositive_ttl (setOp (initCM 3 0) [97] 1 (some 0) 5) [97] 1 (-7) 5
        (by decide)).2.2.2 ⟨[97], 1, 0, 5, none, 5⟩ (by decide) (by decide)).1⟩

/-! ### Claim C4: the engine invariant -/

theorem key_contains_iff (l : List Key) (a : Key) : l.contains a = true ↔ a ∈ l := by
  simp

theorem getLast?_decomp {α : Type _} :
    ∀ (l : List α) (a : α), l.getLast? = some a → l.dropLast ++ [a] = l := by
  intro l
  induction l with
  | nil => intro a h; cases h
  | cons x rest ih =>
      intro a h
      cases rest with
      | nil =>
          have hx : a = x := by
            have : some x = some a := by simpa [List.getLast?] using h
            simpa using this.symm
          subst hx; rfl
      | cons y rest' =>
          have h' : (y :: rest').getLast? = some a := by
            simpa [List.getLast?_cons_cons] using h
          have hd := ih a h'
          calc (x :: y :: rest').dropLast ++ [a]
              = x :: ((y :: rest').dropLast ++ [a]) := by simp
            _ = x :: (y :: rest') := by rw [hd]

/-- Overwriting a key already indexed in the LRU map and splicing its node to
the head preserves the engine invariant (the shared shape of the
`set`-on-existing branch and the `get` hit path). -/
theorem wf_overwrite_promote (s : CMState) (k : Key) (e : CEntry)
    (hk : k ∈ s.lruMap) (h : CMWf s) :
    CMWf { s with table := tblSet s.table k e, lruList := k :: s.lruList.erase k } := by
  obtain ⟨hlen, hkn, hmn, hln, hmem, hml⟩ := h
  have hkS : (tblGet s.table k).isSome := (hmem k).mpr hk
  have hkeys : (tblSet s.table k e).map Prod.fst = s.table.map Prod.fst := by
    rw [keys_tblSet, if_pos hkS]
  refine ⟨?_, ?_, hmn, ?_, ?_, ?_⟩
  · show (tblSet s.table k e).length ≤ s.maxSize
    rw [length_tblSet, if_pos hkS]; exact hlen
  · show ((tblSet s.table k e).map Prod.fst).Nodup
    rw [hkeys]; exact hkn
  · show (k :: s.lruList.erase k).Nodup
    exact List.nodup_cons.mpr ⟨hln.not_mem_erase, hln.erase k⟩
  · intro k'
    show (tblGet (tblSet s.table k e) k').isSome ↔ k' ∈ s.lruMap
    by_cases hk' : k' = k
    · subst hk'; simp [tblGet_tblSet_self, hk]
    · rw [tblGet_tblSet_ne _ _ _ _ hk']; exact hmem k'
  · intro k'
    show k' ∈ s.lruMap ↔ k' ∈ k :: s.lruList.erase k
    by_cases hk' : k' = k
    · subst hk'; simp [hk]
    · rw [List.mem_cons]
      constructor
      · intro hm; exact Or.inr ((List.mem_erase_of_ne hk').mpr ((hml k').mp hm))
      · rintro (hcon | hm)
        · exact absurd hcon hk'
        · exact (hml k').mpr (List.mem_of_mem_erase hm)

/-- Overwriting a present key without touching the LRU structures preserves
the invariant (the `updateTtl` success path). -/
theorem wf_overwrite (s : CMState) (k : Key) (e : CEntry)
    (hk : (tblGet s.table k).isSome) (h : CMWf s) :
    CMWf { s with table := tblSet s.table k e } := by
  obtain ⟨hlen, hkn, hmn, hln, hmem, hml⟩ := h
  have hkeys : (tblSet s.table k e).map Prod.fst = s.table.map Prod.fst := by
    rw [keys_tblSet, if_pos hk]
  refine ⟨?_, ?_, hmn, hln, ?_, hml⟩
  · show (tblSet s.table k e).length ≤ s.maxSize
    rw [length_tblSet, if_pos hk]; exact hlen
  · show ((tblSet s.table k e).map Prod.fst).Nodup
    rw [hkeys]; exact hkn
  · intro k'
    show (tblGet (tblSet s.table k e) k').isSome ↔ k' ∈ s.lruMap
    by_cases hk' : k' = k
    · subst hk'
      simp only [tblGet_tblSet_self, Option.isSome_some, true_iff]
      exact (hmem _).mp hk
    · rw [tblGet_tblSet_ne _ _ _ _ hk']; exact hmem k'

/-- Removing a key from the table, the LRU list and the LRU index together
preserves the invariant (the `delete` path and the eviction path share this
shape via `keys_tblDel`). -/
theorem wf_remove (s : CMState) (k : Key) (h : CMWf s) :
    CMWf { s with table := tblDel s.table k, lruList := s.lruList.erase k,
                  lruMap := s.lruMap.erase k } := by
  obtain ⟨hlen, hkn, hmn, hln, hmem, hml⟩ := h
  refine ⟨?_, ?_, hmn.erase k, hln.erase k, ?_, ?_⟩
  · show (tblDel s.table k).length ≤ s.maxSize
    rw [length_tblDel]
    by_cases hs : (tblGet s.table k).isSome
    · rw [if_pos hs]; omega
    · rw [if_neg hs]; exact hlen
  · show ((tblDel s.table k).map Prod.fst).Nodup
    rw [keys_tblDel]; exact hkn.erase k
  · intro k'
    show (tblGet (tblDel s.table k) k').isSome ↔ k' ∈ s.lruMap.erase k
    rw [tblGet_isSome_iff, keys_tblDel, hkn.mem_erase_iff, hmn.mem_erase_iff,
      ← tblGet_isSome_iff]
    exact and_congr_right (fun _ => hmem k')
  · intro k'
    show k' ∈ s.lruMap.erase k ↔ k' ∈ s.lruList.erase k
    rw [hmn.mem_erase_iff, hln.mem_erase_iff]
    exact and_congr_right (fun _ => hml k')

theorem wf_deleteOp (s : CMState) (k : Key) (h : CMWf s) :
    CMWf (deleteOp s k).2 ∧ (deleteOp s k).2.maxSize = s.maxSize := by
  unfold deleteOp
  by_cases hc : k ∈ s.lruMap
  · rw [if_pos ((key_contains_iff _ _).mpr hc)]
    exact ⟨wf_remove s k h, rfl⟩
  · rw [if_neg (fun hcon => hc ((key_contains_iff _ _).mp hcon))]
    exact ⟨h, rfl⟩

theorem erase_getLast_eq_dropLast (l : List Key) (a : Key)
    (hl : l.Nodup) (h : l.getLast? = some a) : l.erase a = l.dropLast := by
  have hd := getLast?_decomp l a h
  have hnodup : (l.dropLast ++ [a]).Nodup := by rw [hd]; exact hl
  have hna : a ∉ l.dropLast := by
    have hdisj := (List.nodup_append.mp hnodup).2.2
    intro hmem
    exact hdisj hmem (by simp)
  calc l.erase a = (l.dropLast ++ [a]).erase a := by rw [hd]
    _ = l.dropLast ++ ([a].erase a) := List.erase_append_right _ hna
    _ = l.dropLast := by simp

theorem wf_evictLRU (s : CMState) (h : CMWf s) :
    CMWf (evictLRU s) ∧ (evictLRU s).maxSize = s.maxSize ∧
      (s.lruList ≠ [] → (evictLRU s).table.length + 1 = s.table.length) := by
  obtain ⟨hlen, hkn, hmn, hln, hmem, hml⟩ := h
  unfold evictLRU
  cases hlast : s.lruList.getLast? with
  | none =>
      have hnil : s.lruList = [] := by simpa using List.getLast?_eq_none_iff.mp hlast
      exact ⟨⟨hlen, hkn, hmn, hln, hmem, hml⟩, rfl, fun hne => absurd hnil hne⟩
  | some tail =>
      have herase : s.lruList.erase tail = s.lruList.dropLast :=
        erase_getLast_eq_dropLast _ _ hln hlast
      have htail_l : tail ∈ s.lruList := by
        have hd := getLast?_decomp _ _ hlast
        rw [← hd]
        exact List.mem_append_right _ (by simp)
      have htail_m : tail ∈ s.lruMap := (hml tail).mpr htail_l
      have htail_s : (tblGet s.table tail).isSome := (hmem tail).mpr htail_m
      have hWfrem := wf_remove s tail ⟨hlen, hkn, hmn, hln, hmem, hml⟩
      rw [herase] at hWfrem
      refine ⟨hWfrem, rfl, fun _ => ?_⟩
      show (tblDel s.table tail).length + 1 = s.table.length
      have hpos : 0 < s.table.length := by
        have hm : tail ∈ s.table.map Prod.fst := (tblGet_isSome_iff _ _).mp htail_s
        have := List.length_pos_of_mem hm
        simpa using this
      rw [length_tblDel, if_pos htail_s]
      omega

/-- Inserting a key absent from every structure, when there is room for it,
preserves the invariant (the tail of the `set`-on-new-key branch). -/
theorem wf_insert_fresh (s' : CMState) (k : Key) (e : CEntry) (h : CMWf s')
    (hroom : s'.table.length + 1 ≤ s'.maxSize) (hkm : k ∉ s'.lruMap) :
    CMWf { s' with table := tblSet s'.table k e, lruMap := k :: s'.lruMap,
                   lruList := k :: s'.lruList } := by
  obtain ⟨hlen, hkn, hmn, hln, hmem, hml⟩ := h
  have hkl : k ∉ s'.lruList := fun hl => hkm ((hml k).mpr hl)
  have hknone : (tblGet s'.table k).isSome = false := by
    cases hs : (tblGet s'.table k).isSome
    · rfl
    · exact absurd ((hmem k).mp hs) hkm
  have hkkeys : k ∉ s'.table.map Prod.fst := fun hm =>
    by rw [(tblGet_isSome_iff _ _).mpr hm] at hknone; cases hknone
  have hkeys : (tblSet s'.table k e).map Prod.fst = s'.table.map Prod.fst ++ [k] := by
    rw [keys_tblSet, if_neg (by simp [hknone])]
  refine ⟨?_, ?_, ?_, ?_, ?_, ?_⟩
  · show (tblSet s'.table k e).length ≤ s'.maxSize
    rw [length_tblSet, if_neg (by simp [hknone])]
    exact hroom
  · show ((tblSet s'.table k e).map Prod.fst).Nodup
    rw [hkeys]
    exact List.Nodup.append hkn (by simp) (by simpa using hkkeys)
  · show (k :: s'.lruMap).Nodup
    exact List.nodup_cons.mpr ⟨hkm, hmn⟩
  · show (k :: s'.lruList).Nodup
    exact List.nodup_cons.mpr ⟨hkl, hln⟩
  · intro k'
    show (tblGet (tblSet s'.table k e) k').isSome ↔ k' ∈ k :: s'.lruMap
    by_cases hk' : k' = k
    · subst hk'; simp [tblGet_tblSet_self]
    · rw [tblGet_tblSet_ne _ _ _ _ hk', List.mem_cons]
      simp only [hk', false_or]
      exact hmem k'
  · intro k'
    show k' ∈ k :: s'.lruMap ↔ k' ∈ k :: s'.lruList
    rw [List.mem_cons, List.mem_cons]
    exact or_congr Iff.rfl (hml k')

theorem wf_setOp (s : CMState) (k : Key) (v : Val) (ttl? : Option Int) (now : Int)
    (hmax : 1 ≤ s.maxSize) (h : CMWf s) :
    CMWf (setOp s k v ttl? now) ∧ (setOp s k v ttl? now).maxSize = s.maxSize := by
  unfold setOp
  by_cases hc : k ∈ s.lruMap
  · rw [if_pos ((key_contains_iff _ _).mpr hc)]
    exact ⟨wf_overwrite_promote s k _ hc h, rfl⟩
  · rw [if_neg (fun hcon => hc ((key_contains_iff _ _).mp hcon))]
    have hWf' : CMWf (if s.maxSize ≤ s.table.length then evictLRU s else s) := by
      by_cases hev : s.maxSize ≤ s.table.length
      · rw [if_pos hev]; exact (wf_evictLRU s h).1
      · rw [if_neg hev]; exact h
    have hms' : (if s.maxSize ≤ s.table.length then evictLRU s else s).maxSize = s.maxSize := by
      by_cases hev : s.maxSize ≤ s.table.length
      · rw [if_pos hev]; exact (wf_evictLRU s h).2.1
      · rw [if_neg hev]
    have hkm' : k ∉ (if s.maxSize ≤ s.table.length then evictLRU s else s).lruMap := by
      by_cases hev : s.maxSize ≤ s.table.length
      · rw [if_pos hev]
        unfold evictLRU
        cases hlast : s.lruList.getLast? with
        | none => exact hc
        | some tail =>
            show k ∉ s.lruMap.erase tail
            exact fun hm => hc (List.mem_of_mem_erase hm)
      · rw [if_neg hev]; exact hc
    have hroom : (if s.maxSize ≤ s.table.length then evictLRU s else s).table.length + 1 ≤
        (if s.maxSize ≤ s.table.length then evictLRU s else s).maxSize := by
      rw [hms']
      obtain ⟨hlen, hkn, hmn, hln, hmem, hml⟩ := h
      by_cases hev : s.maxSize ≤ s.table.length
      · rw [if_pos hev]
        have hpos : 0 < s.table.length := by omega
        have htne : s.table ≠ [] := by
          intro hnil
          rw [hnil] at hpos
          simp at hpos
        obtain ⟨p0, hp0⟩ := List.exists_mem_of_ne_nil _ htne
        have hk0 : p0.1 ∈ s.table.map Prod.fst := List.mem_map_of_mem _ hp0
        have hk0l : p0.1 ∈ s.lruList :=
          (hml p0.1).mp ((hmem p0.1).mp ((tblGet_isSome_iff _ _).mpr hk0))
        have hlne : s.lruList ≠ [] := List.ne_nil_of_mem hk0l
        have := (wf_evictLRU s ⟨hlen, hkn, hmn, hln, hmem, hml⟩).2.2 hlne
        omega
      · rw [if_neg hev]; omega
    exact ⟨wf_insert_fresh _ k _ hWf' hroom hkm', hms'⟩

theorem wf_getOp (s : CMState) (k : Key) (now : Int) (h : CMWf s) :
    CMWf (getOp s k now).2 ∧ (getOp s k now).2.maxSize = s.maxSize := by
  cases hget : tblGet s.table k with
  | none =>
      simp only [getOp, hget]
      exact ⟨h, trivial⟩
  | some e =>
      cases hexp : isExpired e.expiresAt now with
      | true =>
          simp only [getOp, hget, hexp, if_true]
          have hd := wf_deleteOp s k h
          exact ⟨hd.1, hd.2⟩
      | false =>
          have hkm : k ∈ s.lruMap := by
            obtain ⟨_, _, _, _, hmem, _⟩ := h
            exact (hmem k).mp (by rw [hget]; rfl)
          have hcb : s.lruMap.contains k = true := (key_contains_iff _ _).mpr hkm
          simp only [getOp, hget, hexp, Bool.false_eq_true, if_false, hcb, if_true]
          exact ⟨wf_overwrite_promote s k _ hkm h, trivial⟩

theorem wf_hasOp (s : CMState) (k : Key) (now : Int) (h : CMWf s) :
    CMWf (hasOp s k now).2 ∧ (hasOp s k now).2.maxSize = s.maxSize := by
  cases hget : tblGet s.table k with
  | none =>
      simp only [hasOp, hget]
      exact ⟨h, trivial⟩
  | some e =>
      cases hexp : isExpired e.expiresAt now with
      | true =>
          simp only [hasOp, hget, hexp, if_true]
          exact wf_deleteOp s k h
      | false =>
          simp only [hasOp, hget, hexp, Bool.false_eq_true, if_false]
          exact ⟨h, trivial⟩

theorem wf_updateTTLOp (s : CMState) (k : Key) (ttl now : Int) (h : CMWf s) :
    CMWf (updateTTLOp s k ttl now).2 ∧ (updateTTLOp s k ttl now).2.maxSize = s.maxSize := by
  cases hget : tblGet s.table k with
  | none =>
      simp only [updateTTLOp, hget]
      exact wf_deleteOp s k h
  | some e =>
      cases hexp : isExpired e.expiresAt now with
      | true =>
          simp only [updateTTLOp, hget, hexp, if_true]
          exact wf_deleteOp s k h
      | false =>
          simp only [updateTTLOp, hget, hexp, Bool.false_eq_true, if_false]
          exact ⟨wf_overwrite s k _ (by rw [hget]; rfl) h, trivial⟩

theorem wf_clearOp (s : CMState) : CMWf (clearOp s) := by
  refine ⟨by simp [clearOp], by simp [clearOp], by simp [clearOp], by simp [clearOp], ?_, ?_⟩
  · intro k
    show (tblGet [] k).isSome ↔ k ∈ ([] : List Key)
    simp [tblGet_nil]
  · intro k
    show k ∈ ([] : List Key) ↔ k ∈ ([] : List Key)
    exact Iff.rfl

theorem wf_keysAux (now : Int) :
    ∀ (ks : List Key) (s : CMState), CMWf s →
      CMWf (keysAux now ks s).2 ∧ (keysAux now ks s).2.maxSize = s.maxSize := by
  intro ks
  induction ks with
  | nil => intro s h; exact ⟨h, rfl⟩
  | cons k rest ih =>
      intro s h
      cases hget : tblGet s.table k with
      | none =>
          simp only [keysAux, hget]
          have hd := wf_deleteOp s k h
          have hr := ih (deleteOp s k).2 hd.1
          exact ⟨hr.1, hr.2.trans hd.2⟩
      | some e =>
          cases hexp : isExpired e.expiresAt now with
          | true =>
              simp only [keysAux, hget, hexp, if_true]
              have hd := wf_deleteOp s k h
              have hr := ih (deleteOp s k).2 hd.1
              exact ⟨hr.1, hr.2.trans hd.2⟩
          | false =>
              simp only [keysAux, hget, hexp, Bool.false_eq_true, if_false]
              exact ih s h

theorem wf_applyOp (s : CMState) (op : COp) (hmax : 1 ≤ s.maxSize) (h : CMWf s) :
    CMWf (applyOp s op) ∧ (applyOp s op).maxSize = s.maxSize := by
  cases op with
  | set k v ttl now => exact wf_setOp s k v ttl now hmax h
  | get k now => exact wf_getOp s k now h
  | has k now => exact wf_hasOp s k now h
  | del k => exact wf_deleteOp s k h
  | updateTtl k ttl now => exact wf_updateTTLOp s k ttl now h
  | clear => exact ⟨wf_clearOp s, rfl⟩
  | keys now => exact wf_keysAux now (s.table.map Prod.fst) s h

theorem runOps_wf :
    ∀ (ops : List COp) (s : CMState), 1 ≤ s.maxSize → CMWf s →
      CMWf (runOps s ops) ∧ (runOps s ops).maxSize = s.maxSize := by
  intro ops
  induction ops with
  | nil => intro s _ h; exact ⟨h, rfl⟩
  | cons op rest ih =>
      intro s hmax h
      have h1 := wf_applyOp s op hmax h
      have h2 := ih (applyOp s op) (by rw [h1.2]; exact hmax) h1.1
      exact ⟨h2.1, h2.2.trans h1.2⟩

/-- C4, counterexample.  With `max_size = 0` a single `set` drives the size
above the bound: `evictLRU` finds no tail on the empty list and evicts
nothing, and the insertion then proceeds unconditionally, so `size = 1 > 0 =
max_size` and the claimed invariant fails. -/
theorem c4_invariant_counterexample :
    cacheSize (runOps (initCM 0 3600) [.set [97] 1 none 0]) = 1 ∧
      (runOps (initCM 0 3600) [.set [97] 1 none 0]).maxSize = 0 ∧
      ¬(cacheSize (runOps (initCM 0 3600) [.set [97] 1 none 0]) ≤
        (runOps (initCM 0 3600) [.set [97] 1 none 0]).maxSize) := by
  decide

theorem key_count_eq_one :
    ∀ (l : List Key) (k : Key), l.Nodup → k ∈ l → l.count k = 1 := by
  intro l
  induction l with
  | nil => intro k _ hm; simp at hm
  | cons x rest ih =>
      intro k hn hm
      rw [List.count_cons]
      rcases List.mem_cons.mp hm with he | hmem
      · subst he
        have hx : k ∉ rest := (List.nodup_cons.mp hn).1
        have h0 : rest.count k = 0 := List.count_eq_zero.mpr hx
        simp [h0]
      · have hne : k ≠ x := by
          intro he
          exact (List.nodup_cons.mp hn).1 (he ▸ hmem)
        have h1 : rest.count k = 1 := ih k (List.nodup_cons.mp hn).2 hmem
        simp [h1, hne, Ne.symm hne]

/-- C4, amended.  Provided `max_size ≥ 1`, after any finite sequence of
engine operations the cache satisfies `size ≤ max_size`, the set of keys
reachable in the hash table equals the set of keys in the LRU index, and
every such key has exactly one node in the LRU list. -/
theorem c4_invariant_amended (maxSize : Nat) (ttl : Int) (hmax : 1 ≤ maxSize)
    (ops : List COp) :
    cacheSize (runOps (initCM maxSize ttl) ops) ≤ (runOps (initCM maxSize ttl) ops).maxSize ∧
    (∀ k, (tblGet (runOps (initCM maxSize ttl) ops).table k).isSome ↔
      k ∈ (runOps (initCM maxSize ttl) ops).lruMap) ∧
    (∀ k, k ∈ (runOps (initCM maxSize ttl) ops).lruMap →
      (runOps (initCM maxSize ttl) ops).lruList.count k = 1) := by
  have hinit : CMWf (initCM maxSize ttl) := by
    refine ⟨by simp [initCM], by simp [initCM], by simp [initCM], by simp [initCM], ?_, ?_⟩
    · intro k
      show (tblGet [] k).isSome ↔ k ∈ ([] : List Key)
      simp [tblGet_nil]
    · intro k
      exact Iff.rfl
  obtain ⟨⟨hlen, hkn, hmn, hln, hmem, hml⟩, hms⟩ :=
    runOps_wf ops (initCM maxSize ttl) hmax hinit
  refine ⟨hlen, hmem, ?_⟩
  intro k hk
  exact key_count_eq_one _ k hln ((hml k).mp hk)

/-- C4, witness for the amended theorem at `max_size = 3` and a small
workload. -/
theorem c4_invariant_amended_witness :
    1 ≤ 3 ∧
      (cacheSize (runOps (initCM 3 3600) [.set [97] 1 none 0, .get [97] 0, .del [98]]) ≤
        (runOps (initCM 3 3600) [.set [97] 1 none 0, .get [97] 0, .del [98]]).maxSize ∧
      (∀ k, (tblGet (runOps (initCM 3 3600)
          [.set [97] 1 none 0, .get [97] 0, .del [98]]).table k).isSome ↔
        k ∈ (runOps (initCM 3 3600) [.set [97] 1 none 0, .get [97] 0, .del [98]]).lruMap) ∧
      (∀ k, k ∈ (runOps (initCM 3 3600) [.set [97] 1 none 0, .get [97] 0, .del [98]]).lruMap →
        (runOps (initCM 3 3600)
          [.set [97] 1 none 0, .get [97] 0, .del [98]]).lruList.count k = 1)) :=
  ⟨by decide, c4_invariant_amended 3 3600 (by decide) [.set [97] 1 none 0, .get [97] 0, .del [98]]⟩

end CacheLab
